import Mathlib

/-!
# Birth-certificate registry chaincode (`src/chaincode/main.go`)

A shallow embedding of the chaincode and the properties of its canonical hash
and of its register / verify / update state machine.

Modelling conventions.

* A Go `[]byte` is a `List Nat`. A Go `string` is a byte string: where its
  bytes are well-formed UTF-8 it is modelled as a Lean `String`, a sequence of
  Unicode scalar values, and the definitions named as in the source read it
  so. The definitions with the suffix `Bytes` take the field values as
  arbitrary byte strings, decoded as Go decodes them; on well-formed UTF-8
  they agree with the text definitions (`computeCertHashBytes_utf8Bytes`,
  `RegisterCertBytes_utf8Bytes`, `UpdateCertBytes_utf8Bytes`).
* `strings.TrimSpace`, `strings.Fields`, `strings.Join`, `strings.ToLower`,
  `unicode.IsSpace`, `utf8.DecodeRuneInString`, `hex.EncodeToString` and
  `sha256.Sum256` are written out.
* `encoding/json`, the Unicode case table outside ASCII, and the ledger stub's
  own failures are parameters, collected in `Host`; that `json.Marshal` writes
  U+FFFD for a byte that is not well-formed UTF-8 is written out
  (`toValidUTF8`).
* The clock reading `time.Now().UTC().Format(time.RFC3339)` is an argument of
  the two writing transactions.
-/

namespace CertChain

/-! ## Go standard library: `unicode`, `strings` -/

/-- Go `unicode.IsSpace`: the Latin-1 cases `'\t' '\n' '\v' '\f' '\r' ' '`,
U+0085, U+00A0, and beyond Latin-1 the `White_Space` range table. -/
def isSpace (r : Char) : Bool :=
  if r.toNat ≤ 0xFF then
    r.toNat = 0x09 || r.toNat = 0x0A || r.toNat = 0x0B || r.toNat = 0x0C || r.toNat = 0x0D
      || r.toNat = 0x20 || r.toNat = 0x85 || r.toNat = 0xA0
  else
    r.toNat = 0x1680 || (0x2000 ≤ r.toNat && r.toNat ≤ 0x200A) || r.toNat = 0x2028
      || r.toNat = 0x2029 || r.toNat = 0x202F || r.toNat = 0x205F || r.toNat = 0x3000

/-- Go `strings.TrimLeftFunc(s, unicode.IsSpace)` on the runes of `s`. -/
def trimLeft : List Char → List Char
  | [] => []
  | c :: cs => if isSpace c then trimLeft cs else c :: cs

/-- Go `strings.TrimRightFunc(s, unicode.IsSpace)` on the runes of `s`. -/
def trimRight (cs : List Char) : List Char :=
  (trimLeft cs.reverse).reverse

/-- Go `strings.TrimSpace`: leading and trailing white space removed. -/
def TrimSpace (s : String) : String :=
  ⟨trimRight (trimLeft s.data)⟩

/-- The scanning loop of Go `strings.FieldsFunc(s, unicode.IsSpace)`: `cur` is
the field being read (`none` when `start < 0`); a space closes it, and a field
still open at the end of the input is emitted. -/
def fieldsLoop : List Char → Option (List Char) → List (List Char)
  | [], none => []
  | [], some w => [w]
  | c :: cs, none => if isSpace c then fieldsLoop cs none else fieldsLoop cs (some [c])
  | c :: cs, some w => if isSpace c then w :: fieldsLoop cs none else fieldsLoop cs (some (w ++ [c]))

/-- Go `strings.Fields`. -/
def Fields (s : String) : List String :=
  (fieldsLoop s.data none).map String.mk

/-- The runes of Go `strings.Join(elems, sep)`: the elements in order, with
`sep` between each two consecutive ones. -/
def joinRunes : List (List Char) → List Char → List Char
  | [], _ => []
  | [a], _ => a
  | a :: b :: rest, sep => a ++ sep ++ joinRunes (b :: rest) sep

/-- Go `strings.Join(elems, sep)`. -/
def Join (elems : List String) (sep : String) : String :=
  ⟨joinRunes (elems.map String.data) sep.data⟩

/-- Go `unicode.ToLower`: ASCII letters directly, every other rune through the
Unicode case table `tbl`. -/
def runeToLower (tbl : Char → Char) (r : Char) : Char :=
  if r.toNat ≤ 0x7F then
    (if 'A'.toNat ≤ r.toNat ∧ r.toNat ≤ 'Z'.toNat then Char.ofNat (r.toNat + 32) else r)
  else tbl r

/-- Go `strings.ToLower`. -/
def ToLower (tbl : Char → Char) (s : String) : String :=
  ⟨s.data.map (runeToLower tbl)⟩

/-! ## Canonicalisation (`normalize`) -/

/-- Source `normalize`: `TrimSpace`, then `Fields` joined by one space. -/
def normalize (s : String) : String :=
  let s := TrimSpace s
  let s := Join (Fields s) " "
  s

/-! ## Go standard library: UTF-8 bytes, `crypto/sha256`, `encoding/hex` -/

/-- The UTF-8 encoding of one rune. -/
def utf8Rune (c : Char) : List Nat :=
  let n := c.toNat
  if n < 0x80 then [n]
  else if n < 0x800 then [0xC0 + n / 64, 0x80 + n % 64]
  else if n < 0x10000 then [0xE0 + n / 4096, 0x80 + n / 64 % 64, 0x80 + n % 64]
  else [0xF0 + n / 262144, 0x80 + n / 4096 % 64, 0x80 + n / 64 % 64, 0x80 + n % 64]

/-- Go `[]byte(s)`: the UTF-8 bytes of `s`. -/
def utf8Bytes (s : String) : List Nat :=
  s.data.flatMap utf8Rune

/-- Rotate a 32-bit word right by `k` bits. -/
def rotr32 (x k : Nat) : Nat :=
  ((x >>> k) ||| (x <<< (32 - k))) % 2 ^ 32

/-- The 64 SHA-256 round constants. -/
def sha256K : List Nat :=
  [0x428a2f98, 0x71374491, 0xb5c0fbcf, 0xe9b5dba5, 0x3956c25b, 0x59f111f1, 0x923f82a4, 0xab1c5ed5,
   0xd807aa98, 0x12835b01, 0x243185be, 0x550c7dc3, 0x72be5d74, 0x80deb1fe, 0x9bdc06a7, 0xc19bf174,
   0xe49b69c1, 0xefbe4786, 0x0fc19dc6, 0x240ca1cc, 0x2de92c6f, 0x4a7484aa, 0x5cb0a9dc, 0x76f988da,
   0x983e5152, 0xa831c66d, 0xb00327c8, 0xbf597fc7, 0xc6e00bf3, 0xd5a79147, 0x06ca6351, 0x14292967,
   0x27b70a85, 0x2e1b2138, 0x4d2c6dfc, 0x53380d13, 0x650a7354, 0x766a0abb, 0x81c2c92e, 0x92722c85,
   0xa2bfe8a1, 0xa81a664b, 0xc24b8b70, 0xc76c51a3, 0xd192e819, 0xd6990624, 0xf40e3585, 0x106aa070,
   0x19a4c116, 0x1e376c08, 0x2748774c, 0x34b0bcb5, 0x391c0cb3, 0x4ed8aa4a, 0x5b9cca4f, 0x682e6ff3,
   0x748f82ee, 0x78a5636f, 0x84c87814, 0x8cc70208, 0x90befffa, 0xa4506ceb, 0xbef9a3f7, 0xc67178f2]

/-- The eight working words of SHA-256. -/
structure Sha256State where
  a : Nat
  b : Nat
  c : Nat
  d : Nat
  e : Nat
  f : Nat
  g : Nat
  h : Nat

/-- The SHA-256 initial hash value. -/
def sha256Init : Sha256State :=
  ⟨0x6a09e667, 0xbb67ae85, 0x3c6ef372, 0xa54ff53a, 0x510e527f, 0x9b05688c, 0x1f83d9ab, 0x5be0cd19⟩

/-- Big-endian 32-bit words of a byte string (four bytes each). -/
def beWords : List Nat → List Nat
  | b0 :: b1 :: b2 :: b3 :: rest => (((b0 * 256 + b1) * 256 + b2) * 256 + b3) :: beWords rest
  | _ => []

/-- Extend the 16-word message schedule by `n` further words. -/
def sha256Schedule : Nat → List Nat → List Nat
  | 0, w => w
  | n + 1, w =>
    let i := w.length
    let w15 := w.getD (i - 15) 0
    let w2 := w.getD (i - 2) 0
    let s0 := rotr32 w15 7 ^^^ rotr32 w15 18 ^^^ (w15 >>> 3)
    let s1 := rotr32 w2 17 ^^^ rotr32 w2 19 ^^^ (w2 >>> 10)
    sha256Schedule n (w ++ [(w.getD (i - 16) 0 + s0 + w.getD (i - 7) 0 + s1) % 2 ^ 32])

/-- One SHA-256 round with round constant `k` and schedule word `w`. -/
def sha256Round (s : Sha256State) (k w : Nat) : Sha256State :=
  let S1 := rotr32 s.e 6 ^^^ rotr32 s.e 11 ^^^ rotr32 s.e 25
  let ch := (s.e &&& s.f) ^^^ ((2 ^ 32 - 1 - s.e) &&& s.g)
  let t1 := (s.h + S1 + ch + k + w) % 2 ^ 32
  let S0 := rotr32 s.a 2 ^^^ rotr32 s.a 13 ^^^ rotr32 s.a 22
  let maj := (s.a &&& s.b) ^^^ (s.a &&& s.c) ^^^ (s.b &&& s.c)
  let t2 := (S0 + maj) % 2 ^ 32
  ⟨(t1 + t2) % 2 ^ 32, s.a, s.b, s.c, (s.d + t1) % 2 ^ 32, s.e, s.f, s.g⟩

/-- Compress one 64-byte block into the running hash value. -/
def sha256Block (s : Sha256State) (block : List Nat) : Sha256State :=
  let w := sha256Schedule 48 (beWords block)
  let t := (sha256K.zip w).foldl (fun st kw => sha256Round st kw.1 kw.2) s
  ⟨(s.a + t.a) % 2 ^ 32, (s.b + t.b) % 2 ^ 32, (s.c + t.c) % 2 ^ 32, (s.d + t.d) % 2 ^ 32,
   (s.e + t.e) % 2 ^ 32, (s.f + t.f) % 2 ^ 32, (s.g + t.g) % 2 ^ 32, (s.h + t.h) % 2 ^ 32⟩

/-- Compress `n` consecutive 64-byte blocks. -/
def sha256Blocks : Nat → Sha256State → List Nat → Sha256State
  | 0, s, _ => s
  | n + 1, s, bytes => sha256Blocks n (sha256Block s (bytes.take 64)) (bytes.drop 64)

/-- The big-endian bytes of a `k`-byte unsigned number. -/
def beBytes : Nat → Nat → List Nat
  | 0, _ => []
  | k + 1, n => beBytes k (n / 256) ++ [n % 256]

/-- SHA-256 padding: `0x80`, zeros up to 56 mod 64, then the bit length in 8 bytes. -/
def sha256Pad (msg : List Nat) : List Nat :=
  msg ++ [0x80] ++ List.replicate ((64 - (msg.length + 9) % 64) % 64) 0
    ++ beBytes 8 (msg.length * 8 % 2 ^ 64)

/-- Go `sha256.Sum256`: the 32-byte digest. -/
def sha256Sum (msg : List Nat) : List Nat :=
  let p := sha256Pad msg
  let s := sha256Blocks (p.length / 64) sha256Init p
  beBytes 4 s.a ++ beBytes 4 s.b ++ beBytes 4 s.c ++ beBytes 4 s.d
    ++ beBytes 4 s.e ++ beBytes 4 s.f ++ beBytes 4 s.g ++ beBytes 4 s.h

/-- One digit of the alphabet `0123456789abcdef` of `encoding/hex`. -/
def hexDigit (n : Nat) : Char :=
  "0123456789abcdef".data.getD n '0'

/-- Go `hex.EncodeToString`: two lowercase digits per byte. -/
def hexEncode (bs : List Nat) : String :=
  ⟨bs.flatMap fun b => [hexDigit (b / 16 % 16), hexDigit (b % 16)]⟩

/-- The lowercase hexadecimal SHA-256 digest of the UTF-8 bytes of a text. -/
def sha256hex (s : String) : String :=
  hexEncode (sha256Sum (utf8Bytes s))

/-! ## The canonical hash -/

/-- Source `computeCertHash`: the seven normalised parts joined by `|`, hashed
with SHA-256, hex-encoded. -/
def computeCertHash (name dob tob place father mother version : String) : String :=
  let parts := [normalize name, normalize dob, normalize tob, normalize place,
    normalize father, normalize mother, normalize version]
  let payload := Join parts "|"
  let sum := sha256Sum (utf8Bytes payload)
  hexEncode sum

/-! ## Data model -/

/-- Go `[]byte`. -/
abbrev Bytes := List Nat

/-- Go `map[string]string`: `none` is the nil map, `some kvs` a map with the
listed entries. -/
abbrev Metadata := Option (List (String × String))

/-- Source `CertRecord`, the record stored in the ledger. -/
structure CertRecord where
  ID : String
  Hash : String
  Name : String
  DateOfBirth : String
  TimeOfBirth : String
  PlaceOfBirth : String
  FatherName : String
  MotherName : String
  Owner : String
  Timestamp : String
  Metadata : Metadata
  Source : String
  deriving DecidableEq, Repr

/-- The error outcomes of the transactions, each carrying the text of the Go
error that the source returns. -/
inductive Error where
  | AlreadyExists (msg : String)
  | NotFound (msg : String)
  | InvalidMetadata (msg : String)
  | InvalidField (msg : String)
  | StoreError (msg : String)
  | SerializationError (msg : String)
  deriving DecidableEq, Repr

/-- The value Go decodes from JSON into an `interface{}`. -/
inductive JsonValue where
  | null
  | bool (b : Bool)
  | number (literal : String)
  | string (s : String)
  | array (items : List JsonValue)
  | object (members : List (String × JsonValue))

/-- One entry of the ledger's change log of a key (`queryresult.KeyModification`). -/
structure KeyModification where
  TxId : String
  Value : Bytes
  Seconds : Int
  Nanos : Int
  IsDelete : Bool

/-- Source `HistItem`, one entry of the reply of `GetHistory`. -/
structure HistItem where
  TxId : String
  Timestamp : String
  Value : JsonValue
  IsDelete : Bool

/-- The reply object of `VerifyCert` (the source returns its JSON rendering). -/
structure VerifyResponse where
  found : Bool
  record : CertRecord
  hashMatch : Bool
  hashCheckExplanation : String
  deriving DecidableEq, Repr

/-- What the chaincode takes from outside this repository: the Unicode case
table, `encoding/json`, and the ledger stub. -/
structure Host where
  /-- The table behind `unicode.ToLower` for runes outside ASCII. -/
  lowerTable : Char → Char
  /-- Go `json.Marshal(rec)` for a `CertRecord`. -/
  marshalRecord : CertRecord → Except String Bytes
  /-- Go `json.Unmarshal(b, &rec)` into a zero `CertRecord`. -/
  unmarshalRecord : Bytes → Except String CertRecord
  /-- Go `json.Unmarshal(b, &metadata)` into a nil `map[string]string`. -/
  unmarshalMetadata : Bytes → Except String Metadata
  /-- Go `json.Unmarshal(b, &val)` into a nil `interface{}`; `none` on error. -/
  unmarshalValue : Bytes → Option JsonValue
  /-- Go `time.Unix(sec, nsec).UTC().Format(time.RFC3339)`. -/
  formatUnix : Int → Int → String
  /-- The error, if any, with which the stub's `GetState(key)` fails. -/
  getStateErr : String → Option String
  /-- The error, if any, with which the stub's `PutState(key, value)` fails. -/
  putStateErr : String → Bytes → Option String
  /-- The stub's `GetHistoryForKey(key)`: the change log of the key, or an error. -/
  historyForKey : String → Except String (List KeyModification)

/-- The world state of the ledger: the value bytes stored under each key. -/
abbrev World := List (String × Bytes)

/-- The bytes stored under `key`, if any. -/
def World.lookup (key : String) : World → Option Bytes
  | [] => none
  | (k, v) :: rest => if k = key then some v else World.lookup key rest

/-- Store `value` under `key`, overwriting the value already there. -/
def World.store (key : String) (value : Bytes) : World → World
  | [] => [(key, value)]
  | (k, v) :: rest =>
    if k = key then (key, value) :: rest else (k, v) :: World.store key value rest

/-- The stub's `GetState`: `ok none` is the Go result `nil, nil`. -/
def getState (H : Host) (w : World) (key : String) : Except String (Option Bytes) :=
  match H.getStateErr key with
  | some err => .error err
  | none => .ok (w.lookup key)

/-- The stub's `PutState`. -/
def putState (H : Host) (w : World) (key : String) (value : Bytes) : Except String World :=
  match H.putStateErr key value with
  | some err => .error err
  | none => .ok (w.store key value)

/-! ## The transactions -/

/-- The record `RegisterCert` builds: the inputs verbatim, the canonical hash
of the six essential fields under version `v1`, and the clock reading. -/
def newCertRecord (now id name dateOfBirth timeOfBirth placeOfBirth fatherName motherName owner
    source : String) (metadata : Metadata) : CertRecord :=
  let version := "v1"
  let hash := computeCertHash name dateOfBirth timeOfBirth placeOfBirth fatherName
    motherName version
  { ID := id, Hash := hash, Name := name, DateOfBirth := dateOfBirth,
    TimeOfBirth := timeOfBirth, PlaceOfBirth := placeOfBirth, FatherName := fatherName,
    MotherName := motherName, Owner := owner, Timestamp := now, Metadata := metadata,
    Source := source }

/-- Source `RegisterCert`; `now` is `time.Now().UTC().Format(time.RFC3339)`.
The result is the world state after the write, or the error returned. -/
def RegisterCert (H : Host) (now : String) (w : World)
    (id name dateOfBirth timeOfBirth placeOfBirth fatherName motherName owner source
      metadataJSON : String) : Except Error World :=
  match getState H w id with
  | .error err => .error (.StoreError ("falha ao checar estado: " ++ err))
  | .ok (some _) => .error (.AlreadyExists ("registro com id " ++ id ++ " já existe"))
  | .ok none =>
    let parsed : Except String Metadata :=
      if (utf8Bytes metadataJSON).length > 0 then H.unmarshalMetadata (utf8Bytes metadataJSON)
      else .ok (some [])
    match parsed with
    | .error err => .error (.InvalidMetadata ("metadata JSON inválido: " ++ err))
    | .ok metadata =>
      let record := newCertRecord now id name dateOfBirth timeOfBirth placeOfBirth fatherName
        motherName owner source metadata
      match H.marshalRecord record with
      | .error err => .error (.SerializationError err)
      | .ok b =>
        match putState H w id b with
        | .error err => .error (.StoreError err)
        | .ok w' => .ok w'

/-- Source `VerifyCert`; the result is the reply object before its final
`json.Marshal`. -/
def VerifyCert (H : Host) (w : World) (id : String) : Except Error VerifyResponse :=
  match getState H w id with
  | .error err => .error (.StoreError ("erro GetState: " ++ err))
  | .ok none => .error (.NotFound ("registro " ++ id ++ " não encontrado"))
  | .ok (some b) =>
    match H.unmarshalRecord b with
    | .error err => .error (.SerializationError err)
    | .ok rec =>
      let version := "v1"
      let expectedHash := computeCertHash rec.Name rec.DateOfBirth rec.TimeOfBirth
        rec.PlaceOfBirth rec.FatherName rec.MotherName version
      let hashMatch := decide (expectedHash = rec.Hash)
      .ok { found := true, record := rec, hashMatch := hashMatch,
            hashCheckExplanation :=
              "Hash recomputado a partir dos campos essenciais: " ++ expectedHash }

/-- The loop body of `GetHistory`: one change-log entry to one `HistItem`. A
value that fails to parse leaves `val` nil. -/
def histItem (H : Host) (mod : KeyModification) : HistItem :=
  let val : JsonValue :=
    if mod.IsDelete then .null else (H.unmarshalValue mod.Value).getD .null
  { TxId := mod.TxId, Timestamp := H.formatUnix mod.Seconds mod.Nanos, Value := val,
    IsDelete := mod.IsDelete }

/-- The loop of `GetHistory`, appending one item per entry of the iterator. -/
def historyLoop (H : Host) : List KeyModification → List HistItem → List HistItem
  | [], history => history
  | mod :: rest, history => historyLoop H rest (history ++ [histItem H mod])

/-- Source `GetHistory`; the result is the `history` slice before its final
`json.Marshal`. -/
def GetHistory (H : Host) (id : String) : Except Error (List HistItem) :=
  match H.historyForKey id with
  | .error err => .error (.StoreError err)
  | .ok mods => .ok (historyLoop H mods [])

/-- The `switch` of `UpdateCert` on the lower-cased, trimmed field name: the
record with the named field replaced, or `none` in the `default` case. -/
def setField (key : String) (rec : CertRecord) (newValue : String) : Option CertRecord :=
  if key = "name" then some { rec with Name := newValue }
  else if key = "dateofbirth" then some { rec with DateOfBirth := newValue }
  else if key = "timeofbirth" then some { rec with TimeOfBirth := newValue }
  else if key = "placeofbirth" then some { rec with PlaceOfBirth := newValue }
  else if key = "fathername" then some { rec with FatherName := newValue }
  else if key = "mothername" then some { rec with MotherName := newValue }
  else if key = "owner" then some { rec with Owner := newValue }
  else if key = "source" then some { rec with Source := newValue }
  else none

/-- The tail of `UpdateCert`: the hash recomputed from the six essential fields
under version `v1`, and the timestamp set to the clock reading. -/
def rehash (now : String) (rec : CertRecord) : CertRecord :=
  let hashed := { rec with Hash := (computeCertHash rec.Name rec.DateOfBirth
    rec.TimeOfBirth rec.PlaceOfBirth rec.FatherName rec.MotherName "v1") }
  { hashed with Timestamp := now }

/-- Source `UpdateCert`; `now` is `time.Now().UTC().Format(time.RFC3339)`.
The result is the world state after the write, or the error returned. -/
def UpdateCert (H : Host) (now : String) (w : World) (id fieldName newValue : String) :
    Except Error World :=
  match getState H w id with
  | .error err => .error (.StoreError ("erro GetState: " ++ err))
  | .ok none => .error (.NotFound ("registro " ++ id ++ " não encontrado"))
  | .ok (some b) =>
    match H.unmarshalRecord b with
    | .error err => .error (.SerializationError err)
    | .ok rec =>
      match setField (ToLower H.lowerTable (TrimSpace fieldName)) rec newValue with
      | none => .error (.InvalidField ("campo " ++ fieldName ++ " não pode ser atualizado"))
      | some rec =>
        match H.marshalRecord (rehash now rec) with
        | .error err => .error (.SerializationError err)
        | .ok updated =>
          match putState H w id updated with
          | .error err => .error (.StoreError err)
          | .ok w' => .ok w'

/-! ## Sequences of transactions -/

/-- One invocation of the chaincode. -/
inductive Call where
  | register (now id name dateOfBirth timeOfBirth placeOfBirth fatherName motherName owner
      source metadataJSON : String)
  | verify (id : String)
  | history (id : String)
  | update (now id fieldName newValue : String)

/-- The world state after one invocation: what the transaction wrote when it
succeeded, and the state before it when it failed or only read. -/
def Call.after (H : Host) (w : World) : Call → World
  | .register now id name dob tob place father mother owner source metadataJSON =>
    match RegisterCert H now w id name dob tob place father mother owner source metadataJSON with
    | .ok w' => w'
    | .error _ => w
  | .verify id =>
    match VerifyCert H w id with
    | _ => w
  | .history id =>
    match GetHistory H id with
    | _ => w
  | .update now id fieldName newValue =>
    match UpdateCert H now w id fieldName newValue with
    | .ok w' => w'
    | .error _ => w

/-- The text is a sequence of maximal white-space-free words: `WordSplit s ws`
holds when `s` is white space, then the first word of `ws`, then white space,
and so on, every word being non-empty, free of white space, and followed by
white space or by the end of the text. -/
inductive WordSplit : List Char → List (List Char) → Prop where
  | blank (gap : List Char) (hgap : ∀ c ∈ gap, isSpace c = true) : WordSplit gap []
  | word (s gap w rest : List Char) (ws : List (List Char))
      (hs : s = gap ++ w ++ rest)
      (hgap : ∀ c ∈ gap, isSpace c = true)
      (hne : w ≠ [])
      (hw : ∀ c ∈ w, isSpace c = false)
      (hmax : rest = [] ∨ ∃ c cs, rest = c :: cs ∧ isSpace c = true)
      (hrest : WordSplit rest ws) : WordSplit s (w :: ws)

/-- The world state after a sequence of invocations, in order. -/
def run (H : Host) (w : World) (calls : List Call) : World :=
  calls.foldl (Call.after H) w

/-- A law of `encoding/json` on records of well-formed text: what `json.Marshal`
writes for such a record, `json.Unmarshal` reads back as the same record. It
says nothing of argument bytes that are not well-formed UTF-8: those reach
`json.Marshal` only through `CertRecordBytes.stored`, which replaces them. -/
def Host.JsonFaithful (H : Host) : Prop :=
  ∀ (r : CertRecord) (b : Bytes), H.marshalRecord r = .ok b → H.unmarshalRecord b = .ok r

/-- The field names `UpdateCert` accepts, as its `switch` spells them. -/
def fieldWhitelist : List String :=
  ["name", "dateofbirth", "timeofbirth", "placeofbirth", "fathername", "mothername", "owner",
   "source"]

/-- The stored hash of a record is the canonical hash of its essential fields. -/
def HashOk (rec : CertRecord) : Prop :=
  rec.Hash = computeCertHash rec.Name rec.DateOfBirth rec.TimeOfBirth rec.PlaceOfBirth
    rec.FatherName rec.MotherName "v1"

/-- Every value stored in the world state parses to a record whose hash is the
canonical hash of its essential fields. -/
def StoredOk (H : Host) (w : World) : Prop :=
  ∀ k b, (k, b) ∈ w → ∃ r, H.unmarshalRecord b = .ok r ∧ HashOk r

/-! ## A small host, to run the transactions on concrete inputs

It stores records in a length-prefixed encoding instead of JSON and ignores
what follows a record, as `encoding/json` ignores object members it does not
know; as metadata text it accepts `{}`, and `null`, which Go's `json.Unmarshal`
takes without error and without touching the map; its ledger refuses the empty
key and reports a three-entry change log for `cert1`. -/

/-- A text as its length followed by its code points. -/
def encodeString (s : String) : Bytes :=
  s.data.length :: s.data.map Char.toNat

/-- Read back one text and return the bytes after it. -/
def decodeString : Bytes → Option (String × Bytes)
  | [] => none
  | n :: rest =>
    if n ≤ rest.length then some (⟨(rest.take n).map Char.ofNat⟩, rest.drop n) else none

/-- The entries of a map, one after the other. -/
def encodePairs : List (String × String) → Bytes
  | [] => []
  | (k, v) :: rest => encodeString k ++ (encodeString v ++ encodePairs rest)

/-- Read back `n` map entries. -/
def decodePairs : Nat → Bytes → Option (List (String × String) × Bytes)
  | 0, b => some ([], b)
  | n + 1, b =>
    match decodeString b with
    | none => none
    | some (k, b1) =>
      match decodeString b1 with
      | none => none
      | some (v, b2) =>
        match decodePairs n b2 with
        | none => none
        | some (rest, b3) => some ((k, v) :: rest, b3)

/-- A map: `0` for nil, else `1`, the number of entries, and the entries. -/
def encodeMetadata : Metadata → Bytes
  | none => [0]
  | some kvs => 1 :: kvs.length :: encodePairs kvs

/-- Read back a map. -/
def decodeMetadata : Bytes → Option (Metadata × Bytes)
  | 0 :: rest => some (none, rest)
  | 1 :: n :: rest =>
    match decodePairs n rest with
    | none => none
    | some (kvs, b) => some (some kvs, b)
  | _ => none

/-- A record, field by field in declaration order. -/
def encodeRecord (r : CertRecord) : Bytes :=
  encodeString r.ID ++ (encodeString r.Hash ++ (encodeString r.Name
    ++ (encodeString r.DateOfBirth ++ (encodeString r.TimeOfBirth
    ++ (encodeString r.PlaceOfBirth ++ (encodeString r.FatherName
    ++ (encodeString r.MotherName ++ (encodeString r.Owner ++ (encodeString r.Timestamp
    ++ (encodeMetadata r.Metadata ++ encodeString r.Source))))))))))

/-- Read back a record. -/
def decodeRecord (b : Bytes) : Option CertRecord :=
  match decodeString b with
  | none => none
  | some (id, b) =>
  match decodeString b with
  | none => none
  | some (hash, b) =>
  match decodeString b with
  | none => none
  | some (name, b) =>
  match decodeString b with
  | none => none
  | some (dob, b) =>
  match decodeString b with
  | none => none
  | some (tob, b) =>
  match decodeString b with
  | none => none
  | some (place, b) =>
  match decodeString b with
  | none => none
  | some (father, b) =>
  match decodeString b with
  | none => none
  | some (mother, b) =>
  match decodeString b with
  | none => none
  | some (owner, b) =>
  match decodeString b with
  | none => none
  | some (timestamp, b) =>
  match decodeMetadata b with
  | none => none
  | some (metadata, b) =>
  match decodeString b with
  | none => none
  | some (source, _) =>
    some { ID := id, Hash := hash, Name := name, DateOfBirth := dob, TimeOfBirth := tob,
           PlaceOfBirth := place, FatherName := father, MotherName := mother, Owner := owner,
           Timestamp := timestamp, Metadata := metadata, Source := source }

/-- The JSON object Go decodes from a stored record into an `interface{}`. -/
def recordValue (r : CertRecord) : JsonValue :=
  .object
    [("id", .string r.ID), ("hash", .string r.Hash), ("name", .string r.Name),
     ("dateOfBirth", .string r.DateOfBirth), ("timeOfBirth", .string r.TimeOfBirth),
     ("placeOfBirth", .string r.PlaceOfBirth), ("fatherName", .string r.FatherName),
     ("motherName", .string r.MotherName), ("owner", .string r.Owner),
     ("timestamp", .string r.Timestamp),
     ("metadata",
        match r.Metadata with
        | none => .null
        | some kvs => .object (kvs.map fun kv => (kv.1, .string kv.2))),
     ("source", .string r.Source)]

/-- The change log the small host reports for `cert1`: a write of bytes that
parse, a write of bytes that do not, and a delete. -/
def demoLog (first : Bytes) : List KeyModification :=
  [{ TxId := "tx1", Value := first, Seconds := 1714557600, Nanos := 0, IsDelete := false },
   { TxId := "tx2", Value := [7], Seconds := 1714557700, Nanos := 0, IsDelete := false },
   { TxId := "tx3", Value := [], Seconds := 1714557800, Nanos := 0, IsDelete := true }]

/-- The small host. -/
def demoHost : Host where
  lowerTable := id
  marshalRecord := fun r => .ok (encodeRecord r)
  unmarshalRecord := fun b =>
    match decodeRecord b with
    | some r => .ok r
    | none => .error "unexpected end of input"
  unmarshalMetadata := fun b =>
    if b = utf8Bytes "{}" then .ok (some [])
    else if b = utf8Bytes "null" then .ok none
    else .error "unsupported metadata"
  unmarshalValue := fun b => (decodeRecord b).map recordValue
  formatUnix := fun _ _ => "1970-01-01T00:00:00Z"
  getStateErr := fun _ => none
  putStateErr := fun key _ => if key = "" then some "key must not be an empty string" else none
  historyForKey := fun key =>
    if key = "cert1" then
      .ok (demoLog (encodeRecord (newCertRecord "2024-05-01T10:00:00Z" "cert1" "Jane Doe"
        "1990-01-01" "08:00" "City A" "John Doe" "Mary Doe" "OwnerA" "CartórioX" (some []))))
    else .ok []

/-- The clock reading of the worked example's updates. -/
def laterTime : String := "2024-05-02T10:00:00Z"

/-- The Jane Doe certificate of the worked example, as `RegisterCert` stores it. -/
def janeRecord : CertRecord :=
  newCertRecord "2024-05-01T10:00:00Z" "cert1" "Jane Doe" "1990-01-01" "08:00" "City A"
    "John Doe" "Mary Doe" "OwnerA" "CartórioX" (some [])

/-- The registration call of the worked example. -/
def janeCall : Call :=
  .register "2024-05-01T10:00:00Z" "cert1" "Jane Doe" "1990-01-01" "08:00" "City A" "John Doe"
    "Mary Doe" "OwnerA" "CartórioX" "{}"

/-- The world state after the worked example's registration on the small host. -/
def janeWorld : World :=
  [("cert1", encodeRecord janeRecord)]

/-- The world state after renaming the certificate of the worked example. -/
def renamedWorld : World :=
  [("cert1", encodeRecord (rehash laterTime { janeRecord with Name := "New Name" }))]

/-- The world state after changing the owner of the certificate of the worked example. -/
def reownedWorld : World :=
  [("cert1", encodeRecord (rehash laterTime { janeRecord with Owner := "NewOwner" }))]

/-- The `payload` of `computeCertHash`: the seven normalised parts joined by
`|`, the text whose UTF-8 bytes are hashed. -/
def certPayload (name dob tob place father mother version : String) : String :=
  Join [normalize name, normalize dob, normalize tob, normalize place,
    normalize father, normalize mother, normalize version] "|"

/-- Jane Doe's certificate with a hash that was overwritten outside the service. -/
def tamperedRecord : CertRecord :=
  { janeRecord with Hash := "00" }

/-- A world state holding the tampered certificate. -/
def tamperedWorld : World :=
  [("cert1", encodeRecord tamperedRecord)]

/-- Stored bytes that carry a schema version after the record; the small host
reads the record and ignores the version, as `encoding/json` ignores an object
member that `CertRecord` does not declare. -/
def versionedBytes (r : CertRecord) (schemaVersion : String) : Bytes :=
  encodeRecord r ++ encodeString schemaVersion

/-- Jane Doe's certificate hashed under schema version `v2`. -/
def v2Record : CertRecord :=
  { janeRecord with
    Hash := computeCertHash "Jane Doe" "1990-01-01" "08:00" "City A" "John Doe" "Mary Doe" "v2" }

/-- A world state whose bytes for `cert1` carry schema version `v2`. -/
def v2World : World :=
  [("cert1", versionedBytes v2Record "v2")]

/-- A world state whose bytes for `cert1` do not parse. -/
def brokenWorld : World :=
  [("cert1", [7])]

/-- A JSON text that is an object, the only JSON value that is a mapping,
begins with an opening brace after optional white space (space, tab, line feed,
carriage return); this tests that necessary condition. -/
def startsJsonObject (s : String) : Bool :=
  (s.data.dropWhile fun c => c = ' ' || c = '\t' || c = '\n' || c = '\r').head?
    = some (Char.ofNat 123)

/-- The world state after registering Jane Doe's certificate with the metadata
text `null`: the stored record has a nil metadata map. -/
def nullWorld : World :=
  [("cert1", encodeRecord (newCertRecord "2024-05-01T10:00:00Z" "cert1" "Jane Doe" "1990-01-01"
    "08:00" "City A" "John Doe" "Mary Doe" "OwnerA" "CartórioX" none))]

/-- A successful write of the certificate `id` at clock reading `now`: a
`RegisterCert` or an `UpdateCert` that takes the world state `w` to `w'`. -/
def WritesCert (H : Host) (now : String) (w : World) (id : String) (w' : World) : Prop :=
  (∃ name dob tob place father mother owner source metadataJSON,
      RegisterCert H now w id name dob tob place father mother owner source metadataJSON = .ok w')
  ∨ ∃ fieldName newValue, UpdateCert H now w id fieldName newValue = .ok w'

/-- An earlier clock reading than the registration of the worked example. -/
def earlierTime : String := "2024-04-30T10:00:00Z"

/-- The world state after an owner change made at the earlier clock reading. -/
def backdatedWorld : World :=
  [("cert1", encodeRecord (rehash earlierTime { janeRecord with Owner := "NewOwner" }))]

/-! ## Arguments as Go receives them: byte strings

A Go `string` argument is any byte string. The definitions above read a string
as well-formed text; the ones below take the field values as bytes, decode them
as Go does, and follow what happens to bytes that are not well-formed UTF-8.
The key `id`, the field name and the clock reading stay text. -/

/-- What Go's UTF-8 decoder reads at one position of a byte string: a rune in
well-formed encoding, or one byte that is part of none, for which
`utf8.DecodeRuneInString` returns `utf8.RuneError` with width 1. -/
inductive Utf8Item where
  | rune (c : Char)
  | stray (b : Nat)
  deriving DecidableEq, Repr

/-- Go `utf8.DecodeRuneInString` on a string with first byte `b0` and further
bytes `rest`: the item read and the bytes after it. The second byte must lie in
the accept range of the first (`A0..BF` after `E0`, `80..9F` after `ED`,
`90..BF` after `F0`, `80..8F` after `F4`, else `80..BF`), the others in
`80..BF`. -/
def decodeRune (b0 : Nat) (rest : List Nat) : Utf8Item × List Nat :=
  if b0 < 0x80 then (.rune (Char.ofNat b0), rest)
  else if b0 < 0xC2 then (.stray b0, rest)
  else if b0 < 0xE0 then
    match rest with
    | b1 :: r =>
      if 0x80 ≤ b1 ∧ b1 ≤ 0xBF then (.rune (Char.ofNat (b0 % 32 * 64 + b1 % 64)), r)
      else (.stray b0, rest)
    | _ => (.stray b0, rest)
  else if b0 < 0xF0 then
    match rest with
    | b1 :: b2 :: r =>
      if (if b0 = 0xE0 then 0xA0 else 0x80) ≤ b1 ∧ b1 ≤ (if b0 = 0xED then 0x9F else 0xBF)
          ∧ 0x80 ≤ b2 ∧ b2 ≤ 0xBF then
        (.rune (Char.ofNat (b0 % 16 * 4096 + b1 % 64 * 64 + b2 % 64)), r)
      else (.stray b0, rest)
    | _ => (.stray b0, rest)
  else if b0 < 0xF5 then
    match rest with
    | b1 :: b2 :: b3 :: r =>
      if (if b0 = 0xF0 then 0x90 else 0x80) ≤ b1 ∧ b1 ≤ (if b0 = 0xF4 then 0x8F else 0xBF)
          ∧ 0x80 ≤ b2 ∧ b2 ≤ 0xBF ∧ 0x80 ≤ b3 ∧ b3 ≤ 0xBF then
        (.rune (Char.ofNat (b0 % 8 * 262144 + b1 % 64 * 4096 + b2 % 64 * 64 + b3 % 64)), r)
      else (.stray b0, rest)
    | _ => (.stray b0, rest)
  else (.stray b0, rest)

/-- The items of at most `fuel` decoding steps. -/
def decodeItems : Nat → List Nat → List Utf8Item
  | 0, _ => []
  | _ + 1, [] => []
  | fuel + 1, b0 :: rest => (decodeRune b0 rest).1 :: decodeItems fuel (decodeRune b0 rest).2

/-- The items Go's `for range s` reads from the byte string `s`. -/
def goItems (s : List Nat) : List Utf8Item :=
  decodeItems s.length s

/-- The bytes an item stands for. -/
def Utf8Item.bytes : Utf8Item → List Nat
  | .rune c => utf8Rune c
  | .stray b => [b]

/-- Go `unicode.IsSpace` of the rune read: `utf8.RuneError` is no white space. -/
def Utf8Item.isSpace : Utf8Item → Bool
  | .rune c => CertChain.isSpace c
  | .stray _ => false

/-- The rune `encoding/json` writes for the item: a byte that is not
well-formed UTF-8 becomes U+FFFD. -/
def Utf8Item.coerced : Utf8Item → Char
  | .rune c => c
  | .stray _ => Char.ofNat 0xFFFD

/-- The bytes of a sequence of items. -/
def itemBytes (items : List Utf8Item) : List Nat :=
  items.flatMap Utf8Item.bytes

/-- The text `json.Marshal` writes for a Go string, and `json.Unmarshal` reads
back: every byte that is not well-formed UTF-8 replaced by U+FFFD. -/
def toValidUTF8 (s : List Nat) : String :=
  ⟨(goItems s).map Utf8Item.coerced⟩

/-- Go `strings.TrimLeftFunc(s, unicode.IsSpace)` on the items of `s`. -/
def trimLeftItems : List Utf8Item → List Utf8Item
  | [] => []
  | c :: cs => if c.isSpace then trimLeftItems cs else c :: cs

/-- Go `strings.TrimSpace` of a byte string. -/
def TrimSpaceBytes (s : List Nat) : List Nat :=
  itemBytes (trimLeftItems (trimLeftItems (goItems s)).reverse).reverse

/-- The scanning loop of `strings.FieldsFunc(s, unicode.IsSpace)` on items. -/
def fieldsLoopItems : List Utf8Item → Option (List Utf8Item) → List (List Utf8Item)
  | [], none => []
  | [], some w => [w]
  | c :: cs, none => if c.isSpace then fieldsLoopItems cs none else fieldsLoopItems cs (some [c])
  | c :: cs, some w =>
    if c.isSpace then w :: fieldsLoopItems cs none else fieldsLoopItems cs (some (w ++ [c]))

/-- Go `strings.Fields` of a byte string. -/
def FieldsBytes (s : List Nat) : List (List Nat) :=
  (fieldsLoopItems (goItems s) none).map itemBytes

/-- Go `strings.Join(elems, sep)` of byte strings. -/
def JoinBytes : List (List Nat) → List Nat → List Nat
  | [], _ => []
  | [a], _ => a
  | a :: b :: rest, sep => a ++ sep ++ JoinBytes (b :: rest) sep

/-- Source `normalize` on a byte string. -/
def normalizeBytes (s : List Nat) : List Nat :=
  let s := TrimSpaceBytes s
  let s := JoinBytes (FieldsBytes s) (utf8Bytes " ")
  s

/-- Source `computeCertHash` on byte strings. -/
def computeCertHashBytes (name dob tob place father mother version : List Nat) : String :=
  let parts := [normalizeBytes name, normalizeBytes dob, normalizeBytes tob,
    normalizeBytes place, normalizeBytes father, normalizeBytes mother, normalizeBytes version]
  let payload := JoinBytes parts (utf8Bytes "|")
  let sum := sha256Sum payload
  hexEncode sum

/-- The `CertRecord` value the Go code holds in memory: its string fields are
byte strings. -/
structure CertRecordBytes where
  ID : Bytes
  Hash : Bytes
  Name : Bytes
  DateOfBirth : Bytes
  TimeOfBirth : Bytes
  PlaceOfBirth : Bytes
  FatherName : Bytes
  MotherName : Bytes
  Owner : Bytes
  Timestamp : Bytes
  Metadata : Metadata
  Source : Bytes

/-- The record `json.Marshal` writes for an in-memory record: each string
coerced to well-formed UTF-8. -/
def CertRecordBytes.stored (r : CertRecordBytes) : CertRecord :=
  { ID := toValidUTF8 r.ID, Hash := toValidUTF8 r.Hash, Name := toValidUTF8 r.Name,
    DateOfBirth := toValidUTF8 r.DateOfBirth, TimeOfBirth := toValidUTF8 r.TimeOfBirth,
    PlaceOfBirth := toValidUTF8 r.PlaceOfBirth, FatherName := toValidUTF8 r.FatherName,
    MotherName := toValidUTF8 r.MotherName, Owner := toValidUTF8 r.Owner,
    Timestamp := toValidUTF8 r.Timestamp, Metadata := r.Metadata,
    Source := toValidUTF8 r.Source }

/-- The in-memory record `json.Unmarshal` yields for a parsed record: the UTF-8
bytes of each text. -/
def CertRecord.inMemory (r : CertRecord) : CertRecordBytes :=
  { ID := utf8Bytes r.ID, Hash := utf8Bytes r.Hash, Name := utf8Bytes r.Name,
    DateOfBirth := utf8Bytes r.DateOfBirth, TimeOfBirth := utf8Bytes r.TimeOfBirth,
    PlaceOfBirth := utf8Bytes r.PlaceOfBirth, FatherName := utf8Bytes r.FatherName,
    MotherName := utf8Bytes r.MotherName, Owner := utf8Bytes r.Owner,
    Timestamp := utf8Bytes r.Timestamp, Metadata := r.Metadata, Source := utf8Bytes r.Source }

/-- Source `RegisterCert` with the field values and the metadata text as the
byte strings the transaction receives: the hash is taken over the argument
bytes, and `json.Marshal` writes the record. -/
def RegisterCertBytes (H : Host) (now : String) (w : World) (id : String)
    (name dateOfBirth timeOfBirth placeOfBirth fatherName motherName owner source
      metadataJSON : Bytes) : Except Error World :=
  match getState H w id with
  | .error err => .error (.StoreError ("falha ao checar estado: " ++ err))
  | .ok (some _) => .error (.AlreadyExists ("registro com id " ++ id ++ " já existe"))
  | .ok none =>
    let parsed : Except String Metadata :=
      if metadataJSON.length > 0 then H.unmarshalMetadata metadataJSON else .ok (some [])
    match parsed with
    | .error err => .error (.InvalidMetadata ("metadata JSON inválido: " ++ err))
    | .ok metadata =>
      let version := utf8Bytes "v1"
      let hash := computeCertHashBytes name dateOfBirth timeOfBirth placeOfBirth fatherName
        motherName version
      let record : CertRecordBytes :=
        { ID := utf8Bytes id, Hash := utf8Bytes hash, Name := name, DateOfBirth := dateOfBirth,
          TimeOfBirth := timeOfBirth, PlaceOfBirth := placeOfBirth, FatherName := fatherName,
          MotherName := motherName, Owner := owner, Timestamp := utf8Bytes now,
          Metadata := metadata, Source := source }
      match H.marshalRecord record.stored with
      | .error err => .error (.SerializationError err)
      | .ok b =>
        match putState H w id b with
        | .error err => .error (.StoreError err)
        | .ok w' => .ok w'

/-- The `switch` of `UpdateCert` on the in-memory record. -/
def setFieldBytes (key : String) (rec : CertRecordBytes) (newValue : Bytes) :
    Option CertRecordBytes :=
  if key = "name" then some { rec with Name := newValue }
  else if key = "dateofbirth" then some { rec with DateOfBirth := newValue }
  else if key = "timeofbirth" then some { rec with TimeOfBirth := newValue }
  else if key = "placeofbirth" then some { rec with PlaceOfBirth := newValue }
  else if key = "fathername" then some { rec with FatherName := newValue }
  else if key = "mothername" then some { rec with MotherName := newValue }
  else if key = "owner" then some { rec with Owner := newValue }
  else if key = "source" then some { rec with Source := newValue }
  else none

/-- The tail of `UpdateCert` on the in-memory record: the hash recomputed from
the bytes of the six essential fields, and the timestamp set. -/
def rehashBytes (now : String) (rec : CertRecordBytes) : CertRecordBytes :=
  let hashed := { rec with Hash := utf8Bytes (computeCertHashBytes rec.Name rec.DateOfBirth
    rec.TimeOfBirth rec.PlaceOfBirth rec.FatherName rec.MotherName (utf8Bytes "v1")) }
  { hashed with Timestamp := utf8Bytes now }

/-- Source `UpdateCert` with the new value as the byte string the transaction
receives. -/
def UpdateCertBytes (H : Host) (now : String) (w : World) (id fieldName : String)
    (newValue : Bytes) : Except Error World :=
  match getState H w id with
  | .error err => .error (.StoreError ("erro GetState: " ++ err))
  | .ok none => .error (.NotFound ("registro " ++ id ++ " não encontrado"))
  | .ok (some b) =>
    match H.unmarshalRecord b with
    | .error err => .error (.SerializationError err)
    | .ok parsed =>
      match setFieldBytes (ToLower H.lowerTable (TrimSpace fieldName)) parsed.inMemory
          newValue with
      | none => .error (.InvalidField ("campo " ++ fieldName ++ " não pode ser atualizado"))
      | some rec =>
        match H.marshalRecord (rehashBytes now rec).stored with
        | .error err => .error (.SerializationError err)
        | .ok updated =>
          match putState H w id updated with
          | .error err => .error (.StoreError err)
          | .ok w' => .ok w'

/-- The name `Jane`, the byte `FF`, `Doe`: not well-formed UTF-8. -/
def janeBadName : Bytes :=
  [0x4a, 0x61, 0x6e, 0x65, 0xff, 0x44, 0x6f, 0x65]

/-- The record stored by registering the worked example under `janeBadName`:
the hash of the argument bytes, and the name with U+FFFD for the byte `FF`. -/
def badRecord : CertRecord :=
  { ID := "cert1", Hash := "78054c28ce2423b9dfb0f0d4e47ef1af3b56de353360679d7e320e58954f56d0",
    Name := "Jane\uFFFDDoe", DateOfBirth := "1990-01-01", TimeOfBirth := "08:00",
    PlaceOfBirth := "City A", FatherName := "John Doe", MotherName := "Mary Doe",
    Owner := "OwnerA", Timestamp := "2024-05-01T10:00:00Z", Metadata := some [],
    Source := "CartórioX" }

/-- The world state after that registration. -/
def badWorld : World :=
  [("cert1", encodeRecord badRecord)]

/-- The new name `New`, the byte `FF`, `Name`: not well-formed UTF-8. -/
def badNewName : Bytes :=
  [0x4e, 0x65, 0x77, 0xff, 0x4e, 0x61, 0x6d, 0x65]

/-- The record stored by renaming Jane Doe's certificate to `badNewName`: the
hash of the argument bytes, with the name that has U+FFFD for `FF`. -/
def badRenamedRecord : CertRecord :=
  { ID := "cert1", Hash := "357dc2ae54fefa31161ad3757ff567dbea0f747e6c5ba60fed7eddb37b97aad2",
    Name := "New\uFFFDName", DateOfBirth := "1990-01-01", TimeOfBirth := "08:00",
    PlaceOfBirth := "City A", FatherName := "John Doe", MotherName := "Mary Doe",
    Owner := "OwnerA", Timestamp := "2024-05-02T10:00:00Z", Metadata := some [],
    Source := "CartórioX" }

/-- The world state holding `badRenamedRecord`. -/
def badRenamedWorld : World :=
  [("cert1", encodeRecord badRenamedRecord)]

/-- The record stored by changing the owner of the certificate registered
under `janeBadName`: the hash is now the one of the stored name. -/
def rehashedBadRecord : CertRecord :=
  { ID := "cert1", Hash := "9b5d6e014ee0b08883773acedf19ff0be6eea371e0eb50355a8c818547037156",
    Name := "Jane\uFFFDDoe", DateOfBirth := "1990-01-01", TimeOfBirth := "08:00",
    PlaceOfBirth := "City A", FatherName := "John Doe", MotherName := "Mary Doe",
    Owner := "NewOwner", Timestamp := "2024-05-02T10:00:00Z", Metadata := some [],
    Source := "CartórioX" }

/-- The world state holding `rehashedBadRecord`. -/
def rehashedBadWorld : World :=
  [("cert1", encodeRecord rehashedBadRecord)]

/-- The record stored by setting the source of Jane Doe's certificate to the
bytes `43 FF`: the source has U+FFFD for `FF`. -/
def straySourceRecord : CertRecord :=
  { ID := "cert1", Hash := "b9587fffc19115d6d3459a8c16038525fa27df958096e8696eea4217eceb13db",
    Name := "Jane Doe", DateOfBirth := "1990-01-01", TimeOfBirth := "08:00",
    PlaceOfBirth := "City A", FatherName := "John Doe", MotherName := "Mary Doe",
    Owner := "OwnerA", Timestamp := "2024-05-02T10:00:00Z", Metadata := some [],
    Source := "C\uFFFD" }

/-- The world state holding `straySourceRecord`. -/
def straySourceWorld : World :=
  [("cert1", encodeRecord straySourceRecord)]

/-- The record stored by setting the father's name of the tampered certificate
to the byte `FF`: the hash of the argument byte, with the name U+FFFD. -/
def strayFatherRecord : CertRecord :=
  { ID := "cert1", Hash := "2bdc8c889ccbda661cdf811363144cd2d6c9161fafa1945deba0728efaa297c9",
    Name := "Jane Doe", DateOfBirth := "1990-01-01", TimeOfBirth := "08:00",
    PlaceOfBirth := "City A", FatherName := "\uFFFD", MotherName := "Mary Doe",
    Owner := "OwnerA", Timestamp := "2024-05-02T10:00:00Z", Metadata := some [],
    Source := "CartórioX" }

/-- The world state holding `strayFatherRecord`. -/
def strayFatherWorld : World :=
  [("cert1", encodeRecord strayFatherRecord)]

/-- The record stored by setting the owner of Jane Doe's certificate to the
byte `FF`: the owner is U+FFFD. -/
def strayOwnerRecord : CertRecord :=
  { ID := "cert1", Hash := "b9587fffc19115d6d3459a8c16038525fa27df958096e8696eea4217eceb13db",
    Name := "Jane Doe", DateOfBirth := "1990-01-01", TimeOfBirth := "08:00",
    PlaceOfBirth := "City A", FatherName := "John Doe", MotherName := "Mary Doe",
    Owner := "\uFFFD", Timestamp := "2024-05-02T10:00:00Z", Metadata := some [],
    Source := "CartórioX" }

/-- The world state holding `strayOwnerRecord`. -/
def strayOwnerWorld : World :=
  [("cert1", encodeRecord strayOwnerRecord)]

/-! ## Lemmas on `strings.Fields`, `strings.TrimSpace` and `normalize` -/

theorem fieldsLoop_gap (gap : List Char) (hgap : ∀ c ∈ gap, isSpace c = true) (t : List Char) :
    fieldsLoop (gap ++ t) none = fieldsLoop t none := by
  induction gap with
  | nil => rfl
  | cons c g ih =>
    have hc : isSpace c = true := hgap c (List.mem_cons_self c g)
    have hg : ∀ x ∈ g, isSpace x = true := fun x hx => hgap x (List.mem_cons_of_mem c hx)
    simp [fieldsLoop, hc, ih hg]

theorem fieldsLoop_open (u : List Char) (hu : ∀ c ∈ u, isSpace c = false) (t w : List Char) :
    fieldsLoop (u ++ t) (some w) = fieldsLoop t (some (w ++ u)) := by
  induction u generalizing w with
  | nil => simp
  | cons c v ih =>
    have hc : isSpace c = false := hu c (List.mem_cons_self c v)
    have hv : ∀ x ∈ v, isSpace x = false := fun x hx => hu x (List.mem_cons_of_mem c hx)
    simp [fieldsLoop, hc, ih hv]

theorem fieldsLoop_word (w : List Char) (hne : w ≠ []) (hw : ∀ c ∈ w, isSpace c = false)
    (t : List Char) : fieldsLoop (w ++ t) none = fieldsLoop t (some w) := by
  cases w with
  | nil => exact absurd rfl hne
  | cons c v =>
    have hc : isSpace c = false := hw c (List.mem_cons_self c v)
    have hv : ∀ x ∈ v, isSpace x = false := fun x hx => hw x (List.mem_cons_of_mem c hx)
    simp [fieldsLoop, hc, fieldsLoop_open v hv]

theorem fieldsLoop_trailing (gap : List Char) (hgap : ∀ c ∈ gap, isSpace c = true)
    (t : List Char) (cur : Option (List Char)) :
    fieldsLoop (t ++ gap) cur = fieldsLoop t cur := by
  induction t generalizing cur with
  | nil =>
    cases cur with
    | none => simpa [fieldsLoop] using fieldsLoop_gap gap hgap []
    | some w =>
      cases gap with
      | nil => rfl
      | cons c g =>
        have hc : isSpace c = true := hgap c (List.mem_cons_self c g)
        have hg : ∀ x ∈ g, isSpace x = true := fun x hx => hgap x (List.mem_cons_of_mem c hx)
        have h0 := fieldsLoop_gap g hg []
        simp only [List.append_nil] at h0
        simp [fieldsLoop, hc, h0]
  | cons c cs ih =>
    cases cur with
    | none => by_cases hc : isSpace c = true <;> simp [fieldsLoop, hc, ih]
    | some w => by_cases hc : isSpace c = true <;> simp [fieldsLoop, hc, ih]

/-- A word split of a text is what the scanning loop of `strings.Fields` returns. -/
theorem WordSplit.eq_fieldsLoop {s : List Char} {ws : List (List Char)} (h : WordSplit s ws) :
    fieldsLoop s none = ws := by
  induction h with
  | blank gap hgap => simpa [fieldsLoop] using fieldsLoop_gap gap hgap []
  | word s gap w rest ws hs hgap hne hw hmax _ ih =>
    subst hs
    rw [List.append_assoc, fieldsLoop_gap gap hgap, fieldsLoop_word w hne hw]
    rcases hmax with h0 | ⟨c, cs, hc, hsp⟩
    · subst h0
      simp only [fieldsLoop] at ih
      simp [fieldsLoop, ← ih]
    · subst hc
      simp only [fieldsLoop, hsp, if_true] at ih
      simp [fieldsLoop, hsp, ih]

theorem WordSplit.cons_space {s : List Char} {ws : List (List Char)} (h : WordSplit s ws)
    (c : Char) (hc : isSpace c = true) : WordSplit (c :: s) ws := by
  cases h with
  | blank gap hgap =>
    exact .blank _ (by
      intro x hx
      rcases List.mem_cons.1 hx with h1 | h1
      · exact h1 ▸ hc
      · exact hgap x h1)
  | word s gap w rest ws hs hgap hne hw hmax hrest =>
    refine .word _ (c :: gap) w rest _ (by simp [hs]) ?_ hne hw hmax hrest
    intro x hx
    rcases List.mem_cons.1 hx with h1 | h1
    · exact h1 ▸ hc
    · exact hgap x h1

theorem wordSplit_fieldsLoop (s : List Char) :
    WordSplit s (fieldsLoop s none) ∧
      ∀ w : List Char, w ≠ [] → (∀ c ∈ w, isSpace c = false) →
        WordSplit (w ++ s) (fieldsLoop s (some w)) := by
  induction s with
  | nil =>
    refine ⟨.blank [] (by simp), fun w hne hw => ?_⟩
    exact .word _ [] w [] [] (by simp) (by simp) hne hw (Or.inl rfl) (.blank [] (by simp))
  | cons c cs ih =>
    by_cases hc : isSpace c = true
    · have h1 : WordSplit (c :: cs) (fieldsLoop cs none) := ih.1.cons_space c hc
      refine ⟨by simpa [fieldsLoop, hc] using h1, fun w hne hw => ?_⟩
      simp only [fieldsLoop, hc, if_true]
      exact .word _ [] w (c :: cs) _ (by simp) (by simp) hne hw (Or.inr ⟨c, cs, rfl, hc⟩) h1
    · have hc' : isSpace c = false := by simpa using hc
      refine ⟨?_, fun w hne hw => ?_⟩
      · have h2 := ih.2 [c] (by simp) (by simpa using hc')
        simpa [fieldsLoop, hc'] using h2
      · have h2 := ih.2 (w ++ [c]) (by simp) (by
          intro x hx
          rcases List.mem_append.1 hx with h3 | h3
          · exact hw x h3
          · simp at h3; exact h3 ▸ hc')
        simpa [fieldsLoop, hc'] using h2

theorem WordSplit.words_good {s : List Char} {ws : List (List Char)} (h : WordSplit s ws) :
    ∀ w ∈ ws, w ≠ [] ∧ ∀ c ∈ w, isSpace c = false := by
  induction h with
  | blank gap hgap => simp
  | word s gap w rest ws hs hgap hne hw hmax _ ih =>
    intro x hx
    rcases List.mem_cons.1 hx with h1 | h1
    · exact h1 ▸ ⟨hne, hw⟩
    · exact ih x h1

theorem trimLeft_split (s : List Char) :
    ∃ gap, (∀ c ∈ gap, isSpace c = true) ∧ s = gap ++ trimLeft s := by
  induction s with
  | nil => exact ⟨[], by simp, rfl⟩
  | cons c cs ih =>
    by_cases hc : isSpace c = true
    · obtain ⟨gap, hgap, heq⟩ := ih
      refine ⟨c :: gap, ?_, ?_⟩
      · intro x hx
        rcases List.mem_cons.1 hx with h1 | h1
        · exact h1 ▸ hc
        · exact hgap x h1
      · simp only [trimLeft, hc, if_true, List.cons_append]
        exact congrArg (c :: ·) heq
    · exact ⟨[], by simp, by simp [trimLeft, hc]⟩

theorem trimRight_split (s : List Char) :
    ∃ gap, (∀ c ∈ gap, isSpace c = true) ∧ s = trimRight s ++ gap := by
  obtain ⟨gap, hgap, heq⟩ := trimLeft_split s.reverse
  refine ⟨gap.reverse, fun c hc => hgap c (List.mem_reverse.1 hc), ?_⟩
  have h := congrArg List.reverse heq
  simpa [trimRight] using h

theorem fieldsLoop_trim (s : List Char) :
    fieldsLoop (trimRight (trimLeft s)) none = fieldsLoop s none := by
  obtain ⟨g1, hg1, h1⟩ := trimLeft_split s
  obtain ⟨g2, hg2, h2⟩ := trimRight_split (trimLeft s)
  calc fieldsLoop (trimRight (trimLeft s)) none
      = fieldsLoop (trimRight (trimLeft s) ++ g2) none := (fieldsLoop_trailing g2 hg2 _ _).symm
    _ = fieldsLoop (trimLeft s) none := by rw [← h2]
    _ = fieldsLoop (g1 ++ trimLeft s) none := (fieldsLoop_gap g1 hg1 _).symm
    _ = fieldsLoop s none := by rw [← h1]

theorem normalize_data (s : String) :
    (normalize s).data = joinRunes (fieldsLoop s.data none) [' '] := by
  simp only [normalize, Join, Fields, TrimSpace, fieldsLoop_trim, List.map_map]
  have : (String.data ∘ String.mk) = (id : List Char → List Char) := rfl
  rw [this, List.map_id]

/-- Well-formed words joined by single spaces split back into those words. -/
theorem wordSplit_joinRunes (ws : List (List Char))
    (hws : ∀ w ∈ ws, w ≠ [] ∧ ∀ c ∈ w, isSpace c = false) :
    WordSplit (joinRunes ws [' ']) ws := by
  induction ws with
  | nil => exact .blank [] (by simp)
  | cons a rest ih =>
    have ha := hws a (List.mem_cons_self a rest)
    have hrest : ∀ w ∈ rest, w ≠ [] ∧ ∀ c ∈ w, isSpace c = false :=
      fun w hw => hws w (List.mem_cons_of_mem a hw)
    cases rest with
    | nil =>
      exact .word _ [] a [] [] (by simp [joinRunes]) (by simp) ha.1 ha.2 (Or.inl rfl)
        (.blank [] (by simp))
    | cons b more =>
      have h1 : WordSplit (' ' :: joinRunes (b :: more) [' ']) (b :: more) :=
        (ih hrest).cons_space ' ' (by decide)
      exact .word _ [] a (' ' :: joinRunes (b :: more) [' ']) _ (by simp [joinRunes]) (by simp)
        ha.1 ha.2 (Or.inr ⟨' ', _, rfl, by decide⟩) h1

theorem joinRunes_head (ws : List (List Char))
    (hws : ∀ w ∈ ws, w ≠ [] ∧ ∀ c ∈ w, isSpace c = false) (c : Char)
    (hc : (joinRunes ws [' ']).head? = some c) : isSpace c = false := by
  cases ws with
  | nil => simp [joinRunes] at hc
  | cons a rest =>
    have ha := hws a (List.mem_cons_self a rest)
    cases a with
    | nil => exact absurd rfl ha.1
    | cons x xs =>
      have hx : isSpace x = false := ha.2 x (List.mem_cons_self x xs)
      cases rest with
      | nil => simp [joinRunes] at hc; exact hc ▸ hx
      | cons b more => simp [joinRunes] at hc; exact hc ▸ hx

theorem joinRunes_getLast (ws : List (List Char))
    (hws : ∀ w ∈ ws, w ≠ [] ∧ ∀ c ∈ w, isSpace c = false) (c : Char)
    (hc : (joinRunes ws [' ']).getLast? = some c) : isSpace c = false := by
  induction ws with
  | nil => simp [joinRunes] at hc
  | cons a rest ih =>
    have ha := hws a (List.mem_cons_self a rest)
    have hrest : ∀ w ∈ rest, w ≠ [] ∧ ∀ c ∈ w, isSpace c = false :=
      fun w hw => hws w (List.mem_cons_of_mem a hw)
    cases rest with
    | nil =>
      simp only [joinRunes] at hc
      exact ha.2 c (List.mem_of_getLast?_eq_some hc)
    | cons b more =>
      apply ih hrest
      have hne : joinRunes (b :: more) [' '] ≠ [] := by
        intro h0
        have h1 := (wordSplit_joinRunes (b :: more) hrest).eq_fieldsLoop
        rw [h0] at h1
        simp [fieldsLoop] at h1
      simp only [joinRunes, List.append_assoc] at hc
      rw [List.getLast?_append_of_ne_nil _ (by simp), List.singleton_append] at hc
      obtain ⟨y, ys, hy⟩ := List.exists_cons_of_ne_nil hne
      rw [hy] at hc ⊢
      simpa [List.getLast?_cons_cons] using hc

theorem joinRunes_space (ws : List (List Char))
    (hws : ∀ w ∈ ws, w ≠ [] ∧ ∀ c ∈ w, isSpace c = false) (c : Char)
    (hc : c ∈ joinRunes ws [' ']) (hsp : isSpace c = true) : c = ' ' := by
  induction ws with
  | nil => simp [joinRunes] at hc
  | cons a rest ih =>
    have ha := hws a (List.mem_cons_self a rest)
    have hrest : ∀ w ∈ rest, w ≠ [] ∧ ∀ c ∈ w, isSpace c = false :=
      fun w hw => hws w (List.mem_cons_of_mem a hw)
    cases rest with
    | nil =>
      simp only [joinRunes] at hc
      rw [ha.2 c hc] at hsp
      exact absurd hsp (by simp)
    | cons b more =>
      simp only [joinRunes, List.append_assoc, List.mem_append, List.mem_singleton] at hc
      rcases hc with h1 | h1 | h1
      · rw [ha.2 c h1] at hsp
        exact absurd hsp (by simp)
      · exact h1
      · exact ih hrest h1

theorem chain_of_no_space (w : List Char) (hw : ∀ c ∈ w, isSpace c = false) :
    List.Chain' (fun a b => ¬ (isSpace a = true ∧ isSpace b = true)) w := by
  induction w with
  | nil => exact List.chain'_nil
  | cons x xs ih =>
    rw [List.chain'_cons']
    refine ⟨fun y _ h => ?_, ih fun c hc => hw c (List.mem_cons_of_mem x hc)⟩
    rw [hw x (List.mem_cons_self x xs)] at h
    exact absurd h.1 (by simp)

theorem joinRunes_chain (ws : List (List Char))
    (hws : ∀ w ∈ ws, w ≠ [] ∧ ∀ c ∈ w, isSpace c = false) :
    List.Chain' (fun a b => ¬ (isSpace a = true ∧ isSpace b = true)) (joinRunes ws [' ']) := by
  induction ws with
  | nil => exact List.chain'_nil
  | cons a rest ih =>
    have ha := hws a (List.mem_cons_self a rest)
    have hrest : ∀ w ∈ rest, w ≠ [] ∧ ∀ c ∈ w, isSpace c = false :=
      fun w hw => hws w (List.mem_cons_of_mem a hw)
    cases rest with
    | nil => exact chain_of_no_space a ha.2
    | cons b more =>
      simp only [joinRunes, List.append_assoc, List.singleton_append]
      refine List.Chain'.append (chain_of_no_space a ha.2) ?_ ?_
      · rw [List.chain'_cons']
        refine ⟨fun y hy h => ?_, ih hrest⟩
        rw [joinRunes_head (b :: more) hrest y (by simpa using hy)] at h
        exact absurd h.2 (by simp)
      · intro x hx y _ h
        rw [ha.2 x (List.mem_of_getLast?_eq_some (by simpa using hx))] at h
        exact absurd h.1 (by simp)

theorem intercalate_go_data (sep acc : String) (l : List String) :
    (String.intercalate.go acc sep l).data
      = acc.data ++ l.flatMap fun a => sep.data ++ a.data := by
  induction l generalizing acc with
  | nil => simp [String.intercalate.go]
  | cons a rest ih => simp [String.intercalate.go, ih, List.flatMap_cons]

theorem joinRunes_cons (a : List Char) (l : List (List Char)) (sep : List Char) :
    joinRunes (a :: l) sep = a ++ l.flatMap fun b => sep ++ b := by
  induction l generalizing a with
  | nil => simp [joinRunes]
  | cons b rest ih => simp [joinRunes, ih, List.flatMap_cons]

/-- The source's `strings.Join` agrees with the library's `String.intercalate`. -/
theorem Join_eq_intercalate (l : List String) (sep : String) :
    Join l sep = sep.intercalate l := by
  apply String.ext
  cases l with
  | nil => rfl
  | cons a rest =>
    simp [Join, String.intercalate, intercalate_go_data, joinRunes_cons, List.flatMap_map]

theorem normalize_eq_join (s : String) :
    normalize s = Join ((fieldsLoop s.data none).map String.mk) " " := by
  apply String.ext
  rw [normalize_data]
  simp only [Join, List.map_map]
  have : (String.data ∘ String.mk) = (id : List Char → List Char) := rfl
  rw [this, List.map_id]

theorem computeCertHash_eq (name dob tob place father mother version : String) :
    computeCertHash name dob tob place father mother version
      = sha256hex (normalize name ++ "|" ++ normalize dob ++ "|" ++ normalize tob ++ "|"
          ++ normalize place ++ "|" ++ normalize father ++ "|" ++ normalize mother ++ "|"
          ++ normalize version) := by
  have h : Join [normalize name, normalize dob, normalize tob, normalize place,
      normalize father, normalize mother, normalize version] "|"
      = normalize name ++ "|" ++ normalize dob ++ "|" ++ normalize tob ++ "|"
          ++ normalize place ++ "|" ++ normalize father ++ "|" ++ normalize mother ++ "|"
          ++ normalize version := by
    apply String.ext
    simp [Join, joinRunes]
  simp only [computeCertHash, sha256hex, h]

theorem hexDigit_mem (n : Nat) : hexDigit (n % 16) ∈ "0123456789abcdef".data := by
  have h : n % 16 < 16 := Nat.mod_lt _ (by decide)
  interval_cases n % 16 <;> decide

theorem hexEncode_mem (bs : List Nat) : ∀ c ∈ (hexEncode bs).data, c ∈ "0123456789abcdef".data := by
  intro c hc
  simp only [hexEncode, List.mem_flatMap, List.mem_cons, List.mem_singleton] at hc
  obtain ⟨b, _, h | h | h⟩ := hc
  · exact h ▸ hexDigit_mem (b / 16)
  · exact h ▸ hexDigit_mem b
  · simp at h

theorem hexEncode_length (bs : List Nat) : (hexEncode bs).length = 2 * bs.length := by
  induction bs with
  | nil => rfl
  | cons b rest ih =>
    simp only [hexEncode, String.length, List.flatMap_cons, List.length_append, List.length_cons,
      List.length_nil] at ih ⊢
    omega

theorem beBytes_length (k n : Nat) : (beBytes k n).length = k := by
  induction k generalizing n with
  | zero => rfl
  | succ k ih => simp [beBytes, ih]

theorem sha256Sum_length (msg : List Nat) : (sha256Sum msg).length = 32 := by
  simp [sha256Sum, beBytes_length]

/-! ## The canonical hash and `normalize`: C1, C5, C6, C7 -/

/-- C1: `computeCertHash` is the lowercase hexadecimal SHA-256 digest (64 digits
of `0123456789abcdef`) of the UTF-8 bytes of the seven normalised arguments, in
the order name, dob, tob, place, father, mother, version, with one `|` between
consecutive values; and on the Jane Doe example it is the digest of
`Jane Doe|1990-01-01|08:00|City A|John Doe|Mary Doe|v1`. -/
theorem computeCertHash_canonical :
    (∀ name dob tob place father mother version : String,
      computeCertHash name dob tob place father mother version
        = hexEncode (sha256Sum (utf8Bytes
            (normalize name ++ "|" ++ normalize dob ++ "|" ++ normalize tob ++ "|"
              ++ normalize place ++ "|" ++ normalize father ++ "|" ++ normalize mother ++ "|"
              ++ normalize version)))
      ∧ (computeCertHash name dob tob place father mother version).length = 64
      ∧ ∀ c ∈ (computeCertHash name dob tob place father mother version).data,
          c ∈ "0123456789abcdef".data)
    ∧ computeCertHash "Jane Doe" "1990-01-01" "08:00" "City A" "John Doe" "Mary Doe" "v1"
        = sha256hex "Jane Doe|1990-01-01|08:00|City A|John Doe|Mary Doe|v1" := by
  refine ⟨fun name dob tob place father mother version => ⟨?_, ?_, ?_⟩, ?_⟩
  · rw [computeCertHash_eq]
    rfl
  · simp [computeCertHash, hexEncode_length, sha256Sum_length]
  · exact hexEncode_mem _
  · rw [computeCertHash_eq]
    have h1 : normalize "Jane Doe" = "Jane Doe" := by decide
    have h2 : normalize "1990-01-01" = "1990-01-01" := by decide
    have h3 : normalize "08:00" = "08:00" := by decide
    have h4 : normalize "City A" = "City A" := by decide
    have h5 : normalize "John Doe" = "John Doe" := by decide
    have h6 : normalize "Mary Doe" = "Mary Doe" := by decide
    have h7 : normalize "v1" = "v1" := by decide
    rw [h1, h2, h3, h4, h5, h6, h7]
    rfl

/-- Two texts have equal `normalize` images exactly when they have the same
word split, that is, when they differ only in the white space around and
between their words. -/
theorem normalize_eq_iff (a b : String) :
    normalize a = normalize b ↔ ∃ ws, WordSplit a.data ws ∧ WordSplit b.data ws := by
  have ha := (wordSplit_fieldsLoop a.data).1
  have hb := (wordSplit_fieldsLoop b.data).1
  constructor
  · intro h
    have hd : joinRunes (fieldsLoop a.data none) [' '] = joinRunes (fieldsLoop b.data none) [' '] := by
      rw [← normalize_data, ← normalize_data, h]
    have h1 := (wordSplit_joinRunes _ ha.words_good).eq_fieldsLoop
    have h2 := (wordSplit_joinRunes _ hb.words_good).eq_fieldsLoop
    rw [hd, h2] at h1
    exact ⟨fieldsLoop a.data none, ha, h1 ▸ hb⟩
  · rintro ⟨ws, h1, h2⟩
    apply String.ext
    rw [normalize_data, normalize_data, h1.eq_fieldsLoop, h2.eq_fieldsLoop]

/-- C5: `computeCertHash` is a function of the normalised images of its seven
arguments: two argument tuples whose corresponding fields have equal `normalize`
images get the identical digest; and two texts have equal `normalize` images
exactly when they have the same words in the same order, differing only in
leading, trailing or internal white space. -/
theorem computeCertHash_whitespace_insensitive
    (name dob tob place father mother version : String)
    (name' dob' tob' place' father' mother' version' : String)
    (hname : normalize name = normalize name') (hdob : normalize dob = normalize dob')
    (htob : normalize tob = normalize tob') (hplace : normalize place = normalize place')
    (hfather : normalize father = normalize father')
    (hmother : normalize mother = normalize mother')
    (hversion : normalize version = normalize version') :
    computeCertHash name dob tob place father mother version
      = computeCertHash name' dob' tob' place' father' mother' version'
    ∧ ∀ a b : String,
        normalize a = normalize b ↔ ∃ ws, WordSplit a.data ws ∧ WordSplit b.data ws := by
  refine ⟨?_, normalize_eq_iff⟩
  simp only [computeCertHash, hname, hdob, htob, hplace, hfather, hmother, hversion]

/-- C5, at a concrete input: padding and doubled internal white space (spaces,
tabs, line breaks) do not change the digest. -/
theorem computeCertHash_whitespace_insensitive_witness :
    computeCertHash "  Jane \t  Doe\n" " 1990-01-01" "08:00 " "City \r\n A" "John  Doe"
        "\tMary Doe" "v1 "
      = computeCertHash "Jane Doe" "1990-01-01" "08:00" "City A" "John Doe" "Mary Doe" "v1" :=
  (computeCertHash_whitespace_insensitive _ _ _ _ _ _ _ _ _ _ _ _ _ _
    (by decide) (by decide) (by decide) (by decide) (by decide) (by decide) (by decide)).1

/-- C6: `normalize` is idempotent: `normalize (normalize x) = normalize x`. -/
theorem normalize_idempotent (x : String) : normalize (normalize x) = normalize x := by
  apply String.ext
  rw [normalize_data, normalize_data]
  have hgood := (wordSplit_fieldsLoop x.data).1.words_good
  rw [(wordSplit_joinRunes _ hgood).eq_fieldsLoop]

/-- C7: `normalize s` is the maximal white-space-free words of `s` (the one
word split `ws` of `s`), in their order, joined by exactly one space; so the
result neither starts nor ends with white space, its only white-space characters
are spaces, no two of them adjacent, and it is empty when `s` is empty or all
white space. -/
theorem normalize_canonical_form (s : String) :
    ∃ ws : List (List Char),
      WordSplit s.data ws ∧ (∀ ws', WordSplit s.data ws' → ws' = ws)
      ∧ normalize s = " ".intercalate (ws.map String.mk)
      ∧ (∀ c, (normalize s).data.head? = some c → isSpace c = false)
      ∧ (∀ c, (normalize s).data.getLast? = some c → isSpace c = false)
      ∧ (∀ c ∈ (normalize s).data, isSpace c = true → c = ' ')
      ∧ List.Chain' (fun a b => ¬ (isSpace a = true ∧ isSpace b = true)) (normalize s).data
      ∧ ((∀ c ∈ s.data, isSpace c = true) → normalize s = "") := by
  have hsplit := (wordSplit_fieldsLoop s.data).1
  have hgood := hsplit.words_good
  refine ⟨fieldsLoop s.data none, hsplit, fun ws' h => h.eq_fieldsLoop.symm, ?_, ?_, ?_, ?_, ?_, ?_⟩
  · rw [normalize_eq_join, Join_eq_intercalate]
  · rw [normalize_data]
    exact joinRunes_head _ hgood
  · rw [normalize_data]
    exact joinRunes_getLast _ hgood
  · rw [normalize_data]
    exact joinRunes_space _ hgood
  · rw [normalize_data]
    exact joinRunes_chain _ hgood
  · intro hall
    apply String.ext
    rw [normalize_data, (WordSplit.blank s.data hall).eq_fieldsLoop]
    rfl

/-! ## Lemmas on the world state and the transactions -/

theorem World.lookup_store_self (w : World) (key : String) (v : Bytes) :
    (w.store key v).lookup key = some v := by
  induction w with
  | nil => simp [World.store, World.lookup]
  | cons p rest ih =>
    obtain ⟨k, x⟩ := p
    by_cases h : k = key
    · simp [World.store, World.lookup, h]
    · simp [World.store, World.lookup, h, ih]

theorem World.mem_store (w : World) (key : String) (v : Bytes) (p : String × Bytes)
    (hp : p ∈ w.store key v) : p = (key, v) ∨ p ∈ w := by
  induction w with
  | nil => simpa [World.store] using hp
  | cons q rest ih =>
    obtain ⟨k, x⟩ := q
    by_cases h : k = key
    · simp only [World.store, h, if_true, List.mem_cons] at hp ⊢
      rcases hp with h1 | h1
      · exact Or.inl h1
      · exact Or.inr (Or.inr h1)
    · simp only [World.store, h, if_false, List.mem_cons] at hp ⊢
      rcases hp with h1 | h1
      · exact Or.inr (Or.inl h1)
      · rcases ih h1 with h2 | h2
        · exact Or.inl h2
        · exact Or.inr (Or.inr h2)

theorem World.mem_of_lookup (w : World) (key : String) (v : Bytes)
    (h : w.lookup key = some v) : (key, v) ∈ w := by
  induction w with
  | nil => simp [World.lookup] at h
  | cons q rest ih =>
    obtain ⟨k, x⟩ := q
    by_cases hk : k = key
    · simp only [World.lookup, hk, if_true, Option.some.injEq] at h
      simp [hk, h]
    · simp only [World.lookup, hk, if_false] at h
      exact List.mem_cons_of_mem _ (ih h)

theorem getState_ok {H : Host} {w : World} {key : String} {o : Option Bytes}
    (h : getState H w key = .ok o) : H.getStateErr key = none ∧ w.lookup key = o := by
  unfold getState at h
  split at h
  · cases h
  · rename_i hnone
    exact ⟨hnone, by injection h⟩

theorem getState_of_lookup {H : Host} {w : World} {key : String}
    (herr : H.getStateErr key = none) : getState H w key = .ok (w.lookup key) := by
  simp [getState, herr]

theorem putState_ok {H : Host} {w w' : World} {key : String} {b : Bytes}
    (h : putState H w key b = .ok w') : H.putStateErr key b = none ∧ w' = w.store key b := by
  unfold putState at h
  split at h
  · cases h
  · rename_i hnone
    exact ⟨hnone, by injection h with h1; exact h1.symm⟩

/-- A successful `RegisterCert` found the key absent, parsed the metadata,
marshalled the new record and wrote it under the key. -/
theorem RegisterCert_ok {H : Host} {now : String} {w w' : World}
    {id name dob tob place father mother owner source metadataJSON : String}
    (h : RegisterCert H now w id name dob tob place father mother owner source metadataJSON
      = .ok w') :
    ∃ metadata b,
      getState H w id = .ok none
      ∧ (if (utf8Bytes metadataJSON).length > 0 then H.unmarshalMetadata (utf8Bytes metadataJSON)
          else .ok (some [])) = .ok metadata
      ∧ H.marshalRecord
          (newCertRecord now id name dob tob place father mother owner source metadata) = .ok b
      ∧ putState H w id b = .ok w' := by
  unfold RegisterCert at h
  split at h
  · cases h
  · cases h
  · rename_i hget
    simp only at h
    split at h
    · cases h
    · rename_i metadata hmeta
      split at h
      · cases h
      · rename_i b hmar
        split at h
        · cases h
        · rename_i w2 hput
          injection h with h1
          subst h1
          exact ⟨metadata, b, hget, hmeta, hmar, hput⟩

/-- A successful `UpdateCert` read and parsed the stored record, took a branch
of the `switch`, and wrote the re-hashed record under the same key. -/
theorem UpdateCert_ok {H : Host} {now : String} {w w' : World} {id fieldName newValue : String}
    (h : UpdateCert H now w id fieldName newValue = .ok w') :
    ∃ b old changed b',
      getState H w id = .ok (some b)
      ∧ H.unmarshalRecord b = .ok old
      ∧ setField (ToLower H.lowerTable (TrimSpace fieldName)) old newValue = some changed
      ∧ H.marshalRecord (rehash now changed) = .ok b'
      ∧ putState H w id b' = .ok w' := by
  unfold UpdateCert at h
  split at h
  · cases h
  · cases h
  · rename_i b hget
    split at h
    · cases h
    · rename_i old hold
      split at h
      · cases h
      · rename_i changed hset
        split at h
        · cases h
        · rename_i b' hmar
          split at h
          · cases h
          · rename_i w2 hput
            injection h with h1
            subst h1
            exact ⟨b, old, changed, b', hget, hold, hset, hmar, hput⟩

theorem getState_after_put {H : Host} {w w' : World} {key : String} {b : Bytes}
    (herr : H.getStateErr key = none) (hput : putState H w key b = .ok w') :
    getState H w' key = .ok (some b) := by
  rw [(putState_ok hput).2, getState_of_lookup herr, World.lookup_store_self]

theorem VerifyCert_of_record {H : Host} {w : World} {id : String} {b : Bytes} {rec : CertRecord}
    (hget : getState H w id = .ok (some b)) (hrec : H.unmarshalRecord b = .ok rec) :
    VerifyCert H w id = .ok
      { found := true, record := rec,
        hashMatch := decide (computeCertHash rec.Name rec.DateOfBirth rec.TimeOfBirth
          rec.PlaceOfBirth rec.FatherName rec.MotherName "v1" = rec.Hash),
        hashCheckExplanation := "Hash recomputado a partir dos campos essenciais: "
          ++ computeCertHash rec.Name rec.DateOfBirth rec.TimeOfBirth rec.PlaceOfBirth
              rec.FatherName rec.MotherName "v1" } := by
  simp [VerifyCert, hget, hrec]

theorem VerifyCert_hashOk {H : Host} {w : World} {id : String} {b : Bytes} {rec : CertRecord}
    (hget : getState H w id = .ok (some b)) (hrec : H.unmarshalRecord b = .ok rec)
    (hok : HashOk rec) :
    ∃ resp, VerifyCert H w id = .ok resp ∧ resp.record = rec ∧ resp.hashMatch = true := by
  refine ⟨_, VerifyCert_of_record hget hrec, rfl, ?_⟩
  simpa using hok.symm

theorem hashOk_newCertRecord (now id name dob tob place father mother owner source : String)
    (metadata : Metadata) :
    HashOk (newCertRecord now id name dob tob place father mother owner source metadata) := rfl

theorem hashOk_rehash (now : String) (rec : CertRecord) : HashOk (rehash now rec) := rfl

theorem rehash_Hash (now : String) (rec : CertRecord) :
    (rehash now rec).Hash = computeCertHash rec.Name rec.DateOfBirth rec.TimeOfBirth
      rec.PlaceOfBirth rec.FatherName rec.MotherName "v1" := rfl

theorem storedOk_put {H : Host} (hJ : H.JsonFaithful) {w w' : World} {key : String} {b : Bytes}
    {rec : CertRecord} (hw : StoredOk H w) (hmar : H.marshalRecord rec = .ok b)
    (hok : HashOk rec) (hput : putState H w key b = .ok w') : StoredOk H w' := by
  intro k x hx
  rw [(putState_ok hput).2] at hx
  rcases World.mem_store w key b (k, x) hx with h1 | h1
  · injection h1 with _ h2
    exact ⟨rec, h2 ▸ hJ rec b hmar, hok⟩
  · exact hw k x h1

theorem storedOk_after {H : Host} (hJ : H.JsonFaithful) {w : World} (hw : StoredOk H w)
    (c : Call) : StoredOk H (Call.after H w c) := by
  cases c with
  | register now id name dob tob place father mother owner source metadataJSON =>
    simp only [Call.after]
    split
    · rename_i w' hreg
      obtain ⟨metadata, b, _, _, hmar, hput⟩ := RegisterCert_ok hreg
      exact storedOk_put hJ hw hmar (hashOk_newCertRecord ..) hput
    · exact hw
  | verify id => exact hw
  | history id => exact hw
  | update now id fieldName newValue =>
    simp only [Call.after]
    split
    · rename_i w' hupd
      obtain ⟨b, old, changed, b', _, _, _, hmar, hput⟩ := UpdateCert_ok hupd
      exact storedOk_put hJ hw hmar (hashOk_rehash now changed) hput
    · exact hw

theorem storedOk_run {H : Host} (hJ : H.JsonFaithful) (calls : List Call) {w : World}
    (hw : StoredOk H w) : StoredOk H (run H w calls) := by
  induction calls generalizing w with
  | nil => exact hw
  | cons c rest ih => exact ih (storedOk_after hJ hw c)

theorem storedOk_empty (H : Host) : StoredOk H [] := by
  intro k b h
  cases h

/-! ## The small host is faithful -/

theorem decodeString_encodeString (s : String) (t : Bytes) :
    decodeString (encodeString s ++ t) = some (s, t) := by
  have hmap : List.map Char.ofNat (List.map Char.toNat s.data) = s.data := by
    rw [List.map_map]
    have : (Char.ofNat ∘ Char.toNat) = id := funext fun c => Char.ofNat_toNat c
    rw [this, List.map_id]
  have hlen : s.data.length = (List.map Char.toNat s.data).length := by simp
  simp only [encodeString, List.cons_append, decodeString]
  rw [if_pos (by simp)]
  rw [hlen, List.take_left, List.drop_left, hmap]

theorem decodePairs_encodePairs (kvs : List (String × String)) (t : Bytes) :
    decodePairs kvs.length (encodePairs kvs ++ t) = some (kvs, t) := by
  induction kvs with
  | nil => rfl
  | cons p rest ih =>
    obtain ⟨k, v⟩ := p
    simp only [encodePairs, List.length_cons, decodePairs, List.append_assoc,
      decodeString_encodeString, ih]

theorem decodeMetadata_encodeMetadata (m : Metadata) (t : Bytes) :
    decodeMetadata (encodeMetadata m ++ t) = some (m, t) := by
  cases m with
  | none => rfl
  | some kvs =>
    simp only [encodeMetadata, List.cons_append, decodeMetadata, decodePairs_encodePairs]

theorem decodeRecord_encodeRecord (r : CertRecord) : decodeRecord (encodeRecord r) = some r := by
  have hsrc : decodeString (encodeString r.Source) = some (r.Source, []) := by
    simpa using decodeString_encodeString r.Source []
  simp only [encodeRecord, decodeRecord, decodeString_encodeString,
    decodeMetadata_encodeMetadata, hsrc]

theorem demoHost_faithful : demoHost.JsonFaithful := by
  intro r b h
  simp only [demoHost] at h ⊢
  injection h with h1
  subst h1
  simp only [decodeRecord_encodeRecord]

/-- The SHA-256 model reproduces the standard test vector for `abc`. -/
theorem sha256hex_abc :
    sha256hex "abc" = "ba7816bf8f01cfea414140de5dae2223b00361a396177a9cb410ff61f20015ad" := by
  decide

theorem register_jane :
    RegisterCert demoHost "2024-05-01T10:00:00Z" [] "cert1" "Jane Doe" "1990-01-01" "08:00"
      "City A" "John Doe" "Mary Doe" "OwnerA" "CartórioX" "{}" = .ok janeWorld := by
  rfl

theorem run_jane : run demoHost [] [janeCall] = janeWorld := by
  rfl

theorem getState_jane : getState demoHost janeWorld "cert1" = .ok (some (encodeRecord janeRecord)) := by
  rfl

theorem unmarshal_jane : demoHost.unmarshalRecord (encodeRecord janeRecord) = .ok janeRecord :=
  demoHost_faithful _ _ rfl

theorem setField_eq_none (key : String) (rec : CertRecord) (v : String) :
    setField key rec v = none ↔ key ∉ fieldWhitelist := by
  unfold setField
  split_ifs <;> simp_all [fieldWhitelist]

/-! ## Register and verify on well-formed text; C4 -/

/-- Round trip on well-formed UTF-8. When the arguments are texts and the JSON
law holds, after a successful `RegisterCert` (which requires the id to be
absent), `VerifyCert` of the same id succeeds with `hashMatch = true` and
returns a record whose id, name, date, time and place of birth, father's and
mother's name, owner and source are the registered inputs verbatim, whose hash
is the canonical hash of those inputs, and whose metadata is the empty mapping
when `metadataJSON` is the empty string. -/
theorem register_verify_round_trip (H : Host) (hJ : H.JsonFaithful) (now : String) (w w' : World)
    (id name dob tob place father mother owner source metadataJSON : String)
    (hreg : RegisterCert H now w id name dob tob place father mother owner source metadataJSON
      = .ok w') :
    getState H w id = .ok none
    ∧ ∃ resp, VerifyCert H w' id = .ok resp ∧ resp.hashMatch = true
      ∧ resp.record.ID = id ∧ resp.record.Name = name ∧ resp.record.DateOfBirth = dob
      ∧ resp.record.TimeOfBirth = tob ∧ resp.record.PlaceOfBirth = place
      ∧ resp.record.FatherName = father ∧ resp.record.MotherName = mother
      ∧ resp.record.Owner = owner ∧ resp.record.Source = source
      ∧ resp.record.Hash = computeCertHash name dob tob place father mother "v1"
      ∧ (metadataJSON = "" → resp.record.Metadata = some []) := by
  obtain ⟨metadata, b, hget, hmeta, hmar, hput⟩ := RegisterCert_ok hreg
  have hget' := getState_after_put (getState_ok hget).1 hput
  refine ⟨hget, _, VerifyCert_of_record hget' (hJ _ _ hmar), ?_, rfl, rfl, rfl, rfl, rfl, rfl,
    rfl, rfl, rfl, rfl, ?_⟩
  · simp [newCertRecord]
  · intro hempty
    subst hempty
    have h0 : (utf8Bytes "").length = 0 := rfl
    rw [h0, if_neg (by decide)] at hmeta
    injection hmeta with h1
    exact h1.symm

/-- The round trip on the worked example: Jane Doe's certificate, registered in the empty
store, verifies with `hashMatch = true` and the registered fields. -/
theorem register_verify_round_trip_witness :
    demoHost.JsonFaithful
    ∧ RegisterCert demoHost "2024-05-01T10:00:00Z" [] "cert1" "Jane Doe" "1990-01-01" "08:00"
        "City A" "John Doe" "Mary Doe" "OwnerA" "CartórioX" "{}" = .ok janeWorld
    ∧ ∃ resp, VerifyCert demoHost janeWorld "cert1" = .ok resp ∧ resp.hashMatch = true
      ∧ resp.record.Name = "Jane Doe" ∧ resp.record.Owner = "OwnerA"
      ∧ resp.record.Hash
          = computeCertHash "Jane Doe" "1990-01-01" "08:00" "City A" "John Doe" "Mary Doe" "v1" := by
  obtain ⟨_, resp, h1, h2, _, h3, _, _, _, _, _, h4, _, h5, _⟩ :=
    register_verify_round_trip demoHost demoHost_faithful _ _ _ _ _ _ _ _ _ _ _ _ _ register_jane
  exact ⟨demoHost_faithful, register_jane, resp, h1, h2, h3, h4, h5⟩

/-- Hash invariant on well-formed UTF-8. When all arguments are texts and the
JSON law holds, in every world state reached from the empty store by a finite
sequence of `RegisterCert`, `UpdateCert`, `VerifyCert` and `GetHistory`
calls, successful or failing, the value stored under any present id parses to a
record whose `Hash` is `computeCertHash` of its current essential fields under
`v1`, and `VerifyCert` of that id reports `hashMatch = true`. -/
theorem hash_invariant (H : Host) (hJ : H.JsonFaithful) (calls : List Call) (id : String)
    (b : Bytes) (hpresent : getState H (run H [] calls) id = .ok (some b)) :
    ∃ rec, H.unmarshalRecord b = .ok rec
      ∧ rec.Hash = computeCertHash rec.Name rec.DateOfBirth rec.TimeOfBirth rec.PlaceOfBirth
          rec.FatherName rec.MotherName "v1"
      ∧ ∃ resp, VerifyCert H (run H [] calls) id = .ok resp ∧ resp.record = rec
          ∧ resp.hashMatch = true := by
  have hmem := World.mem_of_lookup _ _ _ (getState_ok hpresent).2
  obtain ⟨rec, hrec, hok⟩ := storedOk_run hJ calls (storedOk_empty H) id b hmem
  exact ⟨rec, hrec, hok, VerifyCert_hashOk hpresent hrec hok⟩

set_option maxRecDepth 100000

/-- The hash invariant on a concrete run of texts: a registration, a verification, a refused second
registration, a refused update and a history read leave a record that verifies. -/
theorem hash_invariant_witness :
    demoHost.JsonFaithful
    ∧ getState demoHost
        (run demoHost []
          [janeCall, .verify "cert1", janeCall, .update laterTime "cert1" "ssn" "x",
           .history "cert1"]) "cert1" = .ok (some (encodeRecord janeRecord))
    ∧ ∃ resp, VerifyCert demoHost janeWorld "cert1" = .ok resp ∧ resp.hashMatch = true := by
  have hrun : run demoHost []
      [janeCall, .verify "cert1", janeCall, .update laterTime "cert1" "ssn" "x",
       .history "cert1"] = janeWorld := by rfl
  have hget : getState demoHost
      (run demoHost []
        [janeCall, .verify "cert1", janeCall, .update laterTime "cert1" "ssn" "x",
         .history "cert1"]) "cert1" = .ok (some (encodeRecord janeRecord)) := by
    rw [hrun]
    rfl
  obtain ⟨rec, _, _, resp, h1, _, h2⟩ :=
    hash_invariant demoHost demoHost_faithful _ "cert1" _ hget
  rw [hrun] at h1
  exact ⟨demoHost_faithful, hget, resp, h1, h2⟩

/-- C4: no duplicate creation. When the id is present, `RegisterCert` fails with
the AlreadyExists error whatever the other arguments, and the store is left as
it was; so after a successful registration a second registration of the same id
fails with AlreadyExists and the store after both calls is the store after the
first call. -/
theorem no_duplicate_creation (H : Host) (w : World)
    (now id name dob tob place father mother owner source metadataJSON : String) :
    (∀ b, getState H w id = .ok (some b) →
      RegisterCert H now w id name dob tob place father mother owner source metadataJSON
          = .error (.AlreadyExists ("registro com id " ++ id ++ " já existe"))
      ∧ Call.after H w
          (.register now id name dob tob place father mother owner source metadataJSON) = w)
    ∧ (∀ (w1 : World)
        (now0 name0 dob0 tob0 place0 father0 mother0 owner0 source0 metadataJSON0 : String),
      RegisterCert H now0 w id name0 dob0 tob0 place0 father0 mother0 owner0 source0
          metadataJSON0 = .ok w1 →
      RegisterCert H now w1 id name dob tob place father mother owner source metadataJSON
          = .error (.AlreadyExists ("registro com id " ++ id ++ " já existe"))
      ∧ run H w
          [.register now0 id name0 dob0 tob0 place0 father0 mother0 owner0 source0 metadataJSON0,
           .register now id name dob tob place father mother owner source metadataJSON] = w1) := by
  have hfail : ∀ (x : World) (b : Bytes), getState H x id = .ok (some b) →
      RegisterCert H now x id name dob tob place father mother owner source metadataJSON
        = .error (.AlreadyExists ("registro com id " ++ id ++ " já existe")) := by
    intro x b hget
    simp [RegisterCert, hget]
  refine ⟨fun b hget => ⟨hfail w b hget, ?_⟩, ?_⟩
  · simp [Call.after, hfail w b hget]
  · intro w1 now0 name0 dob0 tob0 place0 father0 mother0 owner0 source0 metadataJSON0 hreg
    obtain ⟨metadata, b, hget, _, _, hput⟩ := RegisterCert_ok hreg
    have hget1 := getState_after_put (getState_ok hget).1 hput
    refine ⟨hfail w1 b hget1, ?_⟩
    simp [run, Call.after, hreg, hfail w1 b hget1]

/-- C4 on the worked example: registering `cert1` again, with other data, is
refused and the store keeps Jane Doe's record. -/
theorem no_duplicate_creation_witness :
    getState demoHost janeWorld "cert1" = .ok (some (encodeRecord janeRecord))
    ∧ RegisterCert demoHost "2024-05-03T10:00:00Z" janeWorld "cert1" "Someone Else" "2000-02-02"
        "09:00" "City B" "F" "M" "OwnerB" "CartórioY" ""
        = .error (.AlreadyExists "registro com id cert1 já existe")
    ∧ run demoHost []
        [janeCall, .register "2024-05-03T10:00:00Z" "cert1" "Someone Else" "2000-02-02" "09:00"
          "City B" "F" "M" "OwnerB" "CartórioY" ""] = janeWorld :=
  ⟨getState_jane,
   ((no_duplicate_creation demoHost janeWorld "2024-05-03T10:00:00Z" "cert1" "Someone Else"
      "2000-02-02" "09:00" "City B" "F" "M" "OwnerB" "CartórioY" "").1 _ getState_jane).1,
   ((no_duplicate_creation demoHost [] "2024-05-03T10:00:00Z" "cert1" "Someone Else"
      "2000-02-02" "09:00" "City B" "F" "M" "OwnerB" "CartórioY" "").2 janeWorld _ _ _ _ _ _ _ _
      _ _ register_jane).2⟩

/-! ## Update on well-formed text; C10 -/

theorem setField_name (rec : CertRecord) (v : String) :
    setField "name" rec v = some { rec with Name := v } := rfl

theorem setField_dateofbirth (rec : CertRecord) (v : String) :
    setField "dateofbirth" rec v = some { rec with DateOfBirth := v } := rfl

theorem setField_timeofbirth (rec : CertRecord) (v : String) :
    setField "timeofbirth" rec v = some { rec with TimeOfBirth := v } := rfl

theorem setField_placeofbirth (rec : CertRecord) (v : String) :
    setField "placeofbirth" rec v = some { rec with PlaceOfBirth := v } := rfl

theorem setField_fathername (rec : CertRecord) (v : String) :
    setField "fathername" rec v = some { rec with FatherName := v } := rfl

theorem setField_mothername (rec : CertRecord) (v : String) :
    setField "mothername" rec v = some { rec with MotherName := v } := rfl

theorem setField_owner (rec : CertRecord) (v : String) :
    setField "owner" rec v = some { rec with Owner := v } := rfl

theorem setField_source (rec : CertRecord) (v : String) :
    setField "source" rec v = some { rec with Source := v } := rfl

theorem update_jane_name :
    UpdateCert demoHost laterTime janeWorld "cert1" "name" "New Name" = .ok renamedWorld := by
  rfl

theorem update_jane_owner :
    UpdateCert demoHost laterTime (run demoHost [] [janeCall]) "cert1" "owner" "NewOwner"
      = .ok reownedWorld := by
  rfl

/-- What a successful `UpdateCert` leaves under the key: the re-hashed changed
record, which parses back and verifies. -/
theorem UpdateCert_stored {H : Host} (hJ : H.JsonFaithful) {now : String} {w w' : World}
    {id fieldName v : String} (hupd : UpdateCert H now w id fieldName v = .ok w') :
    ∃ b old changed b',
      getState H w id = .ok (some b) ∧ H.unmarshalRecord b = .ok old
      ∧ setField (ToLower H.lowerTable (TrimSpace fieldName)) old v = some changed
      ∧ getState H w' id = .ok (some b') ∧ H.unmarshalRecord b' = .ok (rehash now changed)
      ∧ ∃ resp, VerifyCert H w' id = .ok resp ∧ resp.record = rehash now changed
          ∧ resp.hashMatch = true := by
  obtain ⟨b, old, changed, b', hget, hold, hset, hmar, hput⟩ := UpdateCert_ok hupd
  have hget' := getState_after_put (getState_ok hget).1 hput
  have hrec := hJ _ _ hmar
  exact ⟨b, old, changed, b', hget, hold, hset, hget', hrec,
    VerifyCert_hashOk hget' hrec (hashOk_rehash now changed)⟩

/-- Hashed mutation on well-formed UTF-8. When the new value is a text and the
JSON law holds, a successful `UpdateCert` of a present id whose field
name selects one of the six essential fields (`name`, `dateofbirth`,
`timeofbirth`, `placeofbirth`, `fathername`, `mothername`) stores a record whose
named field is the new value and whose `Hash` is `computeCertHash` of the new
value and the five other, unchanged essential fields under `v1`; a following
`VerifyCert` reports `hashMatch = true`. -/
theorem update_essential_field_rehashes (H : Host) (hJ : H.JsonFaithful) (now : String)
    (w w' : World) (id fieldName v : String) (b : Bytes) (old : CertRecord)
    (hpresent : getState H w id = .ok (some b)) (hold : H.unmarshalRecord b = .ok old)
    (hupd : UpdateCert H now w id fieldName v = .ok w') :
    ∃ b' new, getState H w' id = .ok (some b') ∧ H.unmarshalRecord b' = .ok new
      ∧ (ToLower H.lowerTable (TrimSpace fieldName) = "name" →
          new.Name = v ∧ new.Hash = computeCertHash v old.DateOfBirth old.TimeOfBirth
            old.PlaceOfBirth old.FatherName old.MotherName "v1")
      ∧ (ToLower H.lowerTable (TrimSpace fieldName) = "dateofbirth" →
          new.DateOfBirth = v ∧ new.Hash = computeCertHash old.Name v old.TimeOfBirth
            old.PlaceOfBirth old.FatherName old.MotherName "v1")
      ∧ (ToLower H.lowerTable (TrimSpace fieldName) = "timeofbirth" →
          new.TimeOfBirth = v ∧ new.Hash = computeCertHash old.Name old.DateOfBirth v
            old.PlaceOfBirth old.FatherName old.MotherName "v1")
      ∧ (ToLower H.lowerTable (TrimSpace fieldName) = "placeofbirth" →
          new.PlaceOfBirth = v ∧ new.Hash = computeCertHash old.Name old.DateOfBirth
            old.TimeOfBirth v old.FatherName old.MotherName "v1")
      ∧ (ToLower H.lowerTable (TrimSpace fieldName) = "fathername" →
          new.FatherName = v ∧ new.Hash = computeCertHash old.Name old.DateOfBirth
            old.TimeOfBirth old.PlaceOfBirth v old.MotherName "v1")
      ∧ (ToLower H.lowerTable (TrimSpace fieldName) = "mothername" →
          new.MotherName = v ∧ new.Hash = computeCertHash old.Name old.DateOfBirth
            old.TimeOfBirth old.PlaceOfBirth old.FatherName v "v1")
      ∧ ∃ resp, VerifyCert H w' id = .ok resp ∧ resp.record = new ∧ resp.hashMatch = true := by
  obtain ⟨b0, old0, changed, b', hget, hold0, hset, hget', hrec, hver⟩ := UpdateCert_stored hJ hupd
  rw [hpresent] at hget
  injection hget with h1
  injection h1 with h2
  subst h2
  rw [hold] at hold0
  injection hold0 with h3
  subst h3
  refine ⟨b', rehash now changed, hget', hrec, ?_, ?_, ?_, ?_, ?_, ?_, hver⟩ <;>
  · intro hkey
    rw [hkey] at hset
    first
      | rw [setField_name] at hset
      | rw [setField_dateofbirth] at hset
      | rw [setField_timeofbirth] at hset
      | rw [setField_placeofbirth] at hset
      | rw [setField_fathername] at hset
      | rw [setField_mothername] at hset
    injection hset with hset
    subst hset
    exact ⟨rfl, rehash_Hash now _⟩

/-- The hashed mutation on the worked example: renaming Jane Doe's certificate
to a text stores the new
name and the hash of the new name with the other five fields, and verifies. -/
theorem update_essential_field_rehashes_witness :
    demoHost.JsonFaithful
    ∧ getState demoHost janeWorld "cert1" = .ok (some (encodeRecord janeRecord))
    ∧ demoHost.unmarshalRecord (encodeRecord janeRecord) = .ok janeRecord
    ∧ UpdateCert demoHost laterTime janeWorld "cert1" "name" "New Name" = .ok renamedWorld
    ∧ ∃ resp, VerifyCert demoHost renamedWorld "cert1" = .ok resp
      ∧ resp.record.Name = "New Name"
      ∧ resp.record.Hash
          = computeCertHash "New Name" "1990-01-01" "08:00" "City A" "John Doe" "Mary Doe" "v1"
      ∧ resp.hashMatch = true := by
  obtain ⟨b', new, _, _, hname, _, _, _, _, _, resp, hv, hr, hm⟩ :=
    update_essential_field_rehashes demoHost demoHost_faithful laterTime janeWorld renamedWorld
      "cert1" "name" "New Name" _ janeRecord getState_jane unmarshal_jane update_jane_name
  have h := hname rfl
  exact ⟨demoHost_faithful, getState_jane, unmarshal_jane, update_jane_name, resp, hv,
    hr ▸ h.1, hr ▸ h.2, hm⟩

/-- Non-hashed mutation on well-formed UTF-8. When all arguments are texts and
the JSON law holds, for a store reached from the empty store through this
service's calls, a successful `UpdateCert` whose field name selects `owner`
(likewise `source`) stores a record with that field set to the new value, the
six essential fields as before, and exactly the `Hash` stored before the call;
a following `VerifyCert` reports `hashMatch = true`. -/
theorem update_owner_source_keeps_hash (H : Host) (hJ : H.JsonFaithful) (calls : List Call)
    (now id fieldName v : String) (w' : World)
    (hkey : ToLower H.lowerTable (TrimSpace fieldName) = "owner"
      ∨ ToLower H.lowerTable (TrimSpace fieldName) = "source")
    (hupd : UpdateCert H now (run H [] calls) id fieldName v = .ok w') :
    ∃ b old b' new,
      getState H (run H [] calls) id = .ok (some b) ∧ H.unmarshalRecord b = .ok old
      ∧ getState H w' id = .ok (some b') ∧ H.unmarshalRecord b' = .ok new
      ∧ new.Hash = old.Hash
      ∧ (ToLower H.lowerTable (TrimSpace fieldName) = "owner" →
          new.Owner = v ∧ new.Source = old.Source)
      ∧ (ToLower H.lowerTable (TrimSpace fieldName) = "source" →
          new.Source = v ∧ new.Owner = old.Owner)
      ∧ new.Name = old.Name ∧ new.DateOfBirth = old.DateOfBirth
      ∧ new.TimeOfBirth = old.TimeOfBirth ∧ new.PlaceOfBirth = old.PlaceOfBirth
      ∧ new.FatherName = old.FatherName ∧ new.MotherName = old.MotherName
      ∧ ∃ resp, VerifyCert H w' id = .ok resp ∧ resp.record = new ∧ resp.hashMatch = true := by
  obtain ⟨b, old, changed, b', hget, hold, hset, hget', hrec, hver⟩ := UpdateCert_stored hJ hupd
  have hmem := World.mem_of_lookup _ _ _ (getState_ok hget).2
  obtain ⟨r, hr, hok⟩ := storedOk_run hJ calls (storedOk_empty H) id b hmem
  rw [hold] at hr
  injection hr with hr
  subst hr
  refine ⟨b, old, b', rehash now changed, hget, hold, hget', hrec, ?_⟩
  rcases hkey with hk | hk
  · rw [hk, setField_owner] at hset
    injection hset with hset
    subst hset
    have hne : ¬ ("owner" = "source") := by decide
    have hh := rehash_Hash now { old with Owner := v }
    refine ⟨hh.trans hok.symm, fun _ => ⟨?_, ?_⟩, fun h => absurd (hk.symm.trans h) hne,
      ?_, ?_, ?_, ?_, ?_, ?_, hver⟩ <;> simp only [rehash]
  · rw [hk, setField_source] at hset
    injection hset with hset
    subst hset
    have hne : ¬ ("source" = "owner") := by decide
    have hh := rehash_Hash now { old with Source := v }
    refine ⟨hh.trans hok.symm, fun h => absurd (hk.symm.trans h) hne, fun _ => ⟨?_, ?_⟩,
      ?_, ?_, ?_, ?_, ?_, ?_, hver⟩ <;> simp only [rehash]

/-- The non-hashed mutation on the worked example: changing the owner of Jane
Doe's registered
certificate keeps the stored hash, and the certificate still verifies. -/
theorem update_owner_source_keeps_hash_witness :
    demoHost.JsonFaithful
    ∧ UpdateCert demoHost laterTime (run demoHost [] [janeCall]) "cert1" "owner" "NewOwner"
        = .ok reownedWorld
    ∧ ∃ resp, VerifyCert demoHost reownedWorld "cert1" = .ok resp
      ∧ resp.record.Owner = "NewOwner" ∧ resp.record.Hash = janeRecord.Hash
      ∧ resp.hashMatch = true := by
  obtain ⟨b, old, b', new, hget, hold, _, _, hhash, howner, _, _, _, _, _, _, _, resp, hv, hr, hm⟩ :=
    update_owner_source_keeps_hash demoHost demoHost_faithful [janeCall] laterTime "cert1"
      "owner" "NewOwner" reownedWorld (Or.inl rfl) update_jane_owner
  have hb : b = encodeRecord janeRecord := by
    have h1 : getState demoHost (run demoHost [] [janeCall]) "cert1"
        = .ok (some (encodeRecord janeRecord)) := getState_jane
    rw [h1] at hget
    injection hget with h2
    injection h2 with h3
    exact h3.symm
  have hold' : old = janeRecord := by
    rw [hb, unmarshal_jane] at hold
    injection hold with h4
    exact h4.symm
  exact ⟨demoHost_faithful, update_jane_owner, resp, hv, hr ▸ (howner rfl).1,
    hr ▸ hold' ▸ hhash, hm⟩

theorem UpdateCert_invalidField {H : Host} (now : String) {w : World}
    {id fieldName v : String} {b : Bytes} {rec : CertRecord}
    (hpresent : getState H w id = .ok (some b)) (hparse : H.unmarshalRecord b = .ok rec)
    (hset : setField (ToLower H.lowerTable (TrimSpace fieldName)) rec v = none) :
    UpdateCert H now w id fieldName v
      = .error (.InvalidField ("campo " ++ fieldName ++ " não pode ser atualizado")) := by
  simp [UpdateCert, hpresent, hparse, hset]

theorem UpdateCert_validField {H : Host} {now : String} {w : World}
    {id fieldName v : String} {b : Bytes} {rec changed : CertRecord}
    (hpresent : getState H w id = .ok (some b)) (hparse : H.unmarshalRecord b = .ok rec)
    (hset : setField (ToLower H.lowerTable (TrimSpace fieldName)) rec v = some changed)
    (msg : String) : UpdateCert H now w id fieldName v ≠ .error (.InvalidField msg) := by
  simp only [UpdateCert, hpresent, hparse, hset]
  split
  · simp
  · split <;> simp

theorem toLower_trimSpace_ssn (tbl : Char → Char) : ToLower tbl (TrimSpace "ssn") = "ssn" := rfl

/-- C10: field whitelist. For a present id whose stored bytes parse,
`UpdateCert` fails with InvalidField exactly when the lower-cased, trimmed field
name is none of `name`, `dateofbirth`, `timeofbirth`, `placeofbirth`,
`fathername`, `mothername`, `owner`, `source`; when it does, and so for the
field name `ssn`, the store, and with it the bytes stored under the id, is
unchanged. -/
theorem update_field_whitelist (H : Host) (now : String) (w : World) (id fieldName v : String)
    (b : Bytes) (rec : CertRecord)
    (hpresent : getState H w id = .ok (some b)) (hparse : H.unmarshalRecord b = .ok rec) :
    ((∃ msg, UpdateCert H now w id fieldName v = .error (.InvalidField msg))
        ↔ ToLower H.lowerTable (TrimSpace fieldName) ∉
            ["name", "dateofbirth", "timeofbirth", "placeofbirth", "fathername", "mothername",
             "owner", "source"])
    ∧ (ToLower H.lowerTable (TrimSpace fieldName) ∉
            ["name", "dateofbirth", "timeofbirth", "placeofbirth", "fathername", "mothername",
             "owner", "source"] →
        UpdateCert H now w id fieldName v
            = .error (.InvalidField ("campo " ++ fieldName ++ " não pode ser atualizado"))
        ∧ Call.after H w (.update now id fieldName v) = w
        ∧ getState H (Call.after H w (.update now id fieldName v)) id = .ok (some b))
    ∧ UpdateCert H now w id "ssn" v
        = .error (.InvalidField "campo ssn não pode ser atualizado")
    ∧ Call.after H w (.update now id "ssn" v) = w
    ∧ getState H (Call.after H w (.update now id "ssn" v)) id = .ok (some b) := by
  have hbad : ∀ f : String, ToLower H.lowerTable (TrimSpace f) ∉ fieldWhitelist →
      UpdateCert H now w id f v
          = .error (.InvalidField ("campo " ++ f ++ " não pode ser atualizado"))
        ∧ Call.after H w (.update now id f v) = w
        ∧ getState H (Call.after H w (.update now id f v)) id = .ok (some b) := by
    intro f hf
    have h1 := UpdateCert_invalidField now hpresent hparse
      ((setField_eq_none _ rec v).2 hf)
    have h2 : Call.after H w (.update now id f v) = w := by simp [Call.after, h1]
    exact ⟨h1, h2, h2.symm ▸ hpresent⟩
  have hssn : ToLower H.lowerTable (TrimSpace "ssn") ∉ fieldWhitelist := by
    rw [toLower_trimSpace_ssn]
    decide
  refine ⟨⟨?_, fun h => ⟨_, (hbad fieldName h).1⟩⟩, hbad fieldName, hbad "ssn" hssn⟩
  rintro ⟨msg, hmsg⟩
  rw [← fieldWhitelist, ← setField_eq_none _ rec v]
  cases hset : setField (ToLower H.lowerTable (TrimSpace fieldName)) rec v with
  | none => rfl
  | some changed => exact absurd hmsg (UpdateCert_validField hpresent hparse hset msg)

/-- C10 on the worked example: `ssn`, and `SSN` with padding, are refused and
Jane Doe's stored bytes stay as they were. -/
theorem update_field_whitelist_witness :
    getState demoHost janeWorld "cert1" = .ok (some (encodeRecord janeRecord))
    ∧ demoHost.unmarshalRecord (encodeRecord janeRecord) = .ok janeRecord
    ∧ UpdateCert demoHost laterTime janeWorld "cert1" " SSN " "x"
        = .error (.InvalidField "campo  SSN  não pode ser atualizado")
    ∧ UpdateCert demoHost laterTime janeWorld "cert1" "ssn" "x"
        = .error (.InvalidField "campo ssn não pode ser atualizado")
    ∧ getState demoHost (Call.after demoHost janeWorld (.update laterTime "cert1" "ssn" "x"))
        "cert1" = .ok (some (encodeRecord janeRecord)) :=
  have h := update_field_whitelist demoHost laterTime janeWorld "cert1" " SSN " "x" _ janeRecord
    getState_jane unmarshal_jane
  ⟨getState_jane, unmarshal_jane, (h.2.1 (by decide)).1, h.2.2.1, h.2.2.2.2⟩

/-! ## Absent ids, deletion, history: C12, C14, C18 -/

theorem World.lookup_store_other (w : World) (key k : String) (v : Bytes) (h : k ≠ key) :
    (w.store key v).lookup k = w.lookup k := by
  induction w with
  | nil =>
    have h' : ¬ key = k := fun e => h e.symm
    simp [World.store, World.lookup, h']
  | cons p rest ih =>
    obtain ⟨k0, x⟩ := p
    by_cases h0 : k0 = key
    · have h1 : ¬ key = k := fun e => h e.symm
      have h2 : ¬ k0 = k := fun e => h (e.symm.trans h0)
      simp [World.store, World.lookup, h0, h1]
    · by_cases h3 : k0 = k
      · subst h3
        simp [World.store, World.lookup, h]
      · simp [World.store, World.lookup, h0, h3, ih]

theorem getState_store_present {H : Host} {w w' : World} {key id : String} {v b : Bytes}
    (hput : putState H w key v = .ok w') (hpresent : getState H w id = .ok (some b)) :
    ∃ b', getState H w' id = .ok (some b') := by
  obtain ⟨herr, hlook⟩ := getState_ok hpresent
  rw [(putState_ok hput).2, getState_of_lookup herr]
  by_cases h : id = key
  · subst h
    exact ⟨v, by rw [World.lookup_store_self]⟩
  · exact ⟨b, by rw [World.lookup_store_other w key id v h, hlook]⟩

theorem present_after {H : Host} {w : World} (c : Call) {id : String} {b : Bytes}
    (hpresent : getState H w id = .ok (some b)) :
    ∃ b', getState H (Call.after H w c) id = .ok (some b') := by
  cases c with
  | register now id0 name dob tob place father mother owner source metadataJSON =>
    simp only [Call.after]
    split
    · rename_i w' hreg
      obtain ⟨_, _, _, _, _, hput⟩ := RegisterCert_ok hreg
      exact getState_store_present hput hpresent
    · exact ⟨b, hpresent⟩
  | verify id0 => exact ⟨b, hpresent⟩
  | history id0 => exact ⟨b, hpresent⟩
  | update now id0 fieldName newValue =>
    simp only [Call.after]
    split
    · rename_i w' hupd
      obtain ⟨_, _, _, _, _, _, _, _, hput⟩ := UpdateCert_ok hupd
      exact getState_store_present hput hpresent
    · exact ⟨b, hpresent⟩

theorem historyLoop_eq (H : Host) (mods : List KeyModification) (acc : List HistItem) :
    historyLoop H mods acc = acc ++ mods.map (histItem H) := by
  induction mods generalizing acc with
  | nil => simp [historyLoop]
  | cons m rest ih => simp [historyLoop, ih]

/-- C12: NotFound. When the id is absent, `VerifyCert` and `UpdateCert` (for any
field name, whitelisted or not, and any value) both fail with the NotFound
error, and the store is left as it was, the id still absent. -/
theorem not_found_on_absent_id (H : Host) (w : World) (now id fieldName v : String)
    (habsent : getState H w id = .ok none) :
    VerifyCert H w id = .error (.NotFound ("registro " ++ id ++ " não encontrado"))
    ∧ UpdateCert H now w id fieldName v
        = .error (.NotFound ("registro " ++ id ++ " não encontrado"))
    ∧ Call.after H w (.verify id) = w
    ∧ Call.after H w (.update now id fieldName v) = w
    ∧ getState H (Call.after H w (.verify id)) id = .ok none
    ∧ getState H (Call.after H w (.update now id fieldName v)) id = .ok none := by
  have hv : VerifyCert H w id = .error (.NotFound ("registro " ++ id ++ " não encontrado")) := by
    simp [VerifyCert, habsent]
  have hu : UpdateCert H now w id fieldName v
      = .error (.NotFound ("registro " ++ id ++ " não encontrado")) := by
    simp [UpdateCert, habsent]
  have h1 : Call.after H w (.verify id) = w := rfl
  have h2 : Call.after H w (.update now id fieldName v) = w := by simp [Call.after, hu]
  exact ⟨hv, hu, h1, h2, h1.symm ▸ habsent, h2.symm ▸ habsent⟩

/-- C12 on the worked example: `cert2` was never registered, so verifying it
and updating its name or its `ssn` are refused with NotFound. -/
theorem not_found_on_absent_id_witness :
    getState demoHost janeWorld "cert2" = .ok none
    ∧ VerifyCert demoHost janeWorld "cert2" = .error (.NotFound "registro cert2 não encontrado")
    ∧ UpdateCert demoHost laterTime janeWorld "cert2" "ssn" "x"
        = .error (.NotFound "registro cert2 não encontrado")
    ∧ Call.after demoHost janeWorld (.update laterTime "cert2" "name" "x") = janeWorld :=
  have h0 : getState demoHost janeWorld "cert2" = .ok none := rfl
  ⟨h0, (not_found_on_absent_id demoHost janeWorld laterTime "cert2" "ssn" "x" h0).1,
   (not_found_on_absent_id demoHost janeWorld laterTime "cert2" "ssn" "x" h0).2.1,
   (not_found_on_absent_id demoHost janeWorld laterTime "cert2" "name" "x" h0).2.2.2.1⟩

/-- C14: `GetHistory` is a pointwise image of the change log. When the store
reports the log `mods` for the id, the reply has the length and the order of
`mods`; its k-th item carries the transaction id and the `isDelete` flag of the
k-th log entry, and its value is null when the entry is a delete or its bytes do
not parse, and otherwise the value decoded from those bytes. -/
theorem getHistory_pointwise (H : Host) (id : String) (mods : List KeyModification)
    (hlog : H.historyForKey id = .ok mods) :
    ∃ items, GetHistory H id = .ok items
      ∧ items = mods.map (histItem H)
      ∧ items.length = mods.length
      ∧ ∀ (k : Nat) (mod : KeyModification), mods[k]? = some mod →
          ∃ item : HistItem, items[k]? = some item
            ∧ item.TxId = mod.TxId ∧ item.IsDelete = mod.IsDelete
            ∧ (mod.IsDelete = true → item.Value = .null)
            ∧ (H.unmarshalValue mod.Value = none → item.Value = .null)
            ∧ (∀ j : JsonValue, mod.IsDelete = false → H.unmarshalValue mod.Value = some j →
                item.Value = j) := by
  refine ⟨mods.map (histItem H), ?_, rfl, by simp, ?_⟩
  · simp [GetHistory, hlog, historyLoop_eq]
  · intro k mod hk
    refine ⟨histItem H mod, by simp [hk], rfl, rfl, ?_, ?_, ?_⟩
    · intro hdel
      simp [histItem, hdel]
    · intro hnone
      by_cases hdel : mod.IsDelete = true <;> simp [histItem, hdel, hnone]
    · intro j hdel hj
      simp [histItem, hdel, hj]

/-- C14 on the small host: the three-entry log of `cert1` gives three items in
the same order, the parsed snapshot first, then null for the bytes that do not
parse, then null for the delete. -/
theorem getHistory_pointwise_witness :
    demoHost.historyForKey "cert1" = .ok (demoLog (encodeRecord janeRecord))
    ∧ ∃ i1 i2 i3, GetHistory demoHost "cert1" = .ok [i1, i2, i3]
      ∧ i1.TxId = "tx1" ∧ i1.IsDelete = false ∧ i1.Value = recordValue janeRecord
      ∧ i2.TxId = "tx2" ∧ i2.IsDelete = false ∧ i2.Value = .null
      ∧ i3.TxId = "tx3" ∧ i3.IsDelete = true ∧ i3.Value = .null := by
  have hlog : demoHost.historyForKey "cert1" = .ok (demoLog (encodeRecord janeRecord)) := rfl
  obtain ⟨items, hget, hitems, _, _⟩ := getHistory_pointwise demoHost "cert1" _ hlog
  subst hitems
  refine ⟨hlog, _, _, _, hget, rfl, rfl, ?_, rfl, rfl, ?_, rfl, rfl, rfl⟩
  · simp [histItem, demoLog, demoHost, decodeRecord_encodeRecord]
  · rfl

/-- C18: records are never deleted. An id present before a call to
`RegisterCert`, `VerifyCert`, `UpdateCert` or `GetHistory`, whatever its
arguments and outcome, is present after it, and so after any sequence of calls. -/
theorem records_never_deleted (H : Host) (w : World) (id : String) (b : Bytes)
    (hpresent : getState H w id = .ok (some b)) :
    (∀ c : Call, ∃ b', getState H (Call.after H w c) id = .ok (some b'))
    ∧ ∀ calls : List Call, ∃ b', getState H (run H w calls) id = .ok (some b') := by
  refine ⟨fun c => present_after c hpresent, fun calls => ?_⟩
  induction calls generalizing w b with
  | nil => exact ⟨b, hpresent⟩
  | cons c rest ih =>
    obtain ⟨b1, h1⟩ := present_after c hpresent
    exact ih (Call.after H w c) b1 h1

/-- C18 on the worked example: after an owner change, a refused registration
and a verification, `cert1` is still present. -/
theorem records_never_deleted_witness :
    getState demoHost janeWorld "cert1" = .ok (some (encodeRecord janeRecord))
    ∧ ∃ b', getState demoHost
        (run demoHost janeWorld
          [.update laterTime "cert1" "owner" "NewOwner", janeCall, .verify "cert1"]) "cert1"
        = .ok (some b') :=
  ⟨getState_jane, (records_never_deleted demoHost janeWorld "cert1" _ getState_jane).2 _⟩

/-! ## The separator: C15, C20 -/

theorem computeCertHash_payload (name dob tob place father mother version : String) :
    computeCertHash name dob tob place father mother version
      = hexEncode (sha256Sum (utf8Bytes (certPayload name dob tob place father mother version))) :=
  rfl

theorem certPayload_data (name dob tob place father mother version : String) :
    (certPayload name dob tob place father mother version).data
      = (normalize name).data ++ '|' :: ((normalize dob).data ++ '|' :: ((normalize tob).data
          ++ '|' :: ((normalize place).data ++ '|' :: ((normalize father).data
          ++ '|' :: ((normalize mother).data ++ '|' :: (normalize version).data))))) := by
  simp [certPayload, Join, joinRunes]

theorem append_sep_inj (sep : Char) (a b x y : List Char) (ha : sep ∉ a) (hb : sep ∉ b)
    (h : a ++ sep :: x = b ++ sep :: y) : a = b ∧ x = y := by
  induction a generalizing b with
  | nil =>
    cases b with
    | nil => exact ⟨rfl, by simpa using h⟩
    | cons c cs =>
      simp only [List.nil_append, List.cons_append, List.cons.injEq] at h
      exact absurd (h.1 ▸ List.mem_cons_self c cs) hb
  | cons c cs ih =>
    cases b with
    | nil =>
      simp only [List.nil_append, List.cons_append, List.cons.injEq] at h
      exact absurd (h.1 ▸ List.mem_cons_self c cs) ha
    | cons e es =>
      simp only [List.cons_append, List.cons.injEq] at h
      obtain ⟨h1, h2⟩ := ih es (fun hm => ha (List.mem_cons_of_mem c hm))
        (fun hm => hb (List.mem_cons_of_mem e hm)) h.2
      exact ⟨by rw [h.1, h1], h2⟩

/-- C15: separator collision. The tuples with name `a|b`, dob `c` and with name
`a`, dob `b|c`, all other fields and the version equal, have different
normalised names and dobs, yet the same joined string and so the same digest. -/
theorem separator_collision (tob place father mother version : String) :
    normalize "a|b" ≠ normalize "a" ∧ normalize "c" ≠ normalize "b|c"
    ∧ certPayload "a|b" "c" tob place father mother version
        = certPayload "a" "b|c" tob place father mother version
    ∧ computeCertHash "a|b" "c" tob place father mother version
        = computeCertHash "a" "b|c" tob place father mother version := by
  have hp : certPayload "a|b" "c" tob place father mother version
      = certPayload "a" "b|c" tob place father mother version := by
    apply String.ext
    rw [certPayload_data, certPayload_data]
    have h1 : (normalize "a|b").data = ['a', '|', 'b'] := by decide
    have h2 : (normalize "c").data = ['c'] := by decide
    have h3 : (normalize "a").data = ['a'] := by decide
    have h4 : (normalize "b|c").data = ['b', '|', 'c'] := by decide
    rw [h1, h2, h3, h4]
    rfl
  refine ⟨by decide, by decide, hp, ?_⟩
  rw [computeCertHash_payload, computeCertHash_payload, hp]

/-- C20: away from the separator the canonical string is injective. For two
argument tuples none of whose normalised fields contains `|`, the joined strings
that `computeCertHash` hashes are equal exactly when the seven normalised fields
are pairwise equal. -/
theorem certPayload_injective (name dob tob place father mother version : String)
    (name' dob' tob' place' father' mother' version' : String)
    (hsep : ∀ x ∈ [name, dob, tob, place, father, mother, version,
      name', dob', tob', place', father', mother', version'], '|' ∉ (normalize x).data) :
    (computeCertHash name dob tob place father mother version
        = hexEncode (sha256Sum (utf8Bytes
            (certPayload name dob tob place father mother version))))
    ∧ (certPayload name dob tob place father mother version
          = certPayload name' dob' tob' place' father' mother' version'
        ↔ normalize name = normalize name' ∧ normalize dob = normalize dob'
          ∧ normalize tob = normalize tob' ∧ normalize place = normalize place'
          ∧ normalize father = normalize father' ∧ normalize mother = normalize mother'
          ∧ normalize version = normalize version') := by
  refine ⟨rfl, ?_, ?_⟩
  · intro h
    have hd := congrArg String.data h
    rw [certPayload_data, certPayload_data] at hd
    obtain ⟨e1, hd⟩ := append_sep_inj '|' _ _ _ _ (hsep name (by simp)) (hsep name' (by simp)) hd
    obtain ⟨e2, hd⟩ := append_sep_inj '|' _ _ _ _ (hsep dob (by simp)) (hsep dob' (by simp)) hd
    obtain ⟨e3, hd⟩ := append_sep_inj '|' _ _ _ _ (hsep tob (by simp)) (hsep tob' (by simp)) hd
    obtain ⟨e4, hd⟩ := append_sep_inj '|' _ _ _ _ (hsep place (by simp)) (hsep place' (by simp)) hd
    obtain ⟨e5, hd⟩ := append_sep_inj '|' _ _ _ _ (hsep father (by simp))
      (hsep father' (by simp)) hd
    obtain ⟨e6, e7⟩ := append_sep_inj '|' _ _ _ _ (hsep mother (by simp))
      (hsep mother' (by simp)) hd
    exact ⟨String.ext e1, String.ext e2, String.ext e3, String.ext e4, String.ext e5,
      String.ext e6, String.ext e7⟩
  · rintro ⟨e1, e2, e3, e4, e5, e6, e7⟩
    simp only [certPayload, e1, e2, e3, e4, e5, e6, e7]

/-- C20 on the worked example: no field of the Jane Doe tuple contains `|`, so
the joined string changes when the place of birth does. -/
theorem certPayload_injective_witness :
    (∀ x ∈ ["Jane Doe", "1990-01-01", "08:00", "City A", "John Doe", "Mary Doe", "v1",
        "Jane Doe", "1990-01-01", "08:00", "City B", "John Doe", "Mary Doe", "v1"],
      '|' ∉ (normalize x).data)
    ∧ certPayload "Jane Doe" "1990-01-01" "08:00" "City A" "John Doe" "Mary Doe" "v1"
        ≠ certPayload "Jane Doe" "1990-01-01" "08:00" "City B" "John Doe" "Mary Doe" "v1" := by
  have hsep : ∀ x ∈ ["Jane Doe", "1990-01-01", "08:00", "City A", "John Doe", "Mary Doe", "v1",
      "Jane Doe", "1990-01-01", "08:00", "City B", "John Doe", "Mary Doe", "v1"],
      '|' ∉ (normalize x).data := by decide
  refine ⟨hsep, fun h => ?_⟩
  have h4 := ((certPayload_injective _ _ _ _ _ _ _ _ _ _ _ _ _ _ hsep).2.1 h).2.2.2.1
  exact absurd h4 (by decide)

/-! ## Update on well-formed text: frame and re-hashing -/

theorem getState_store_other {H : Host} {w w' : World} {key k : String} {v : Bytes}
    (hput : putState H w key v = .ok w') (hk : k ≠ key) :
    w'.lookup k = w.lookup k ∧ getState H w' k = getState H w k := by
  have h1 : w'.lookup k = w.lookup k := by
    rw [(putState_ok hput).2, World.lookup_store_other w key k v hk]
  exact ⟨h1, by simp only [getState, h1]⟩

/-- Frame of `UpdateCert` on well-formed UTF-8. When the new value is a text
and the JSON law holds, a successful update of a present id stores,
under the same key, a record whose named field is exactly the new value and
which, apart from that field, `Hash` and `Timestamp`, is the previous record
(`ID` and `Metadata` included); the value stored under every other key is
unchanged. -/
theorem update_frame (H : Host) (hJ : H.JsonFaithful) (now : String)
    (w w' : World) (id fieldName v : String) (b : Bytes) (old : CertRecord)
    (hpresent : getState H w id = .ok (some b)) (hold : H.unmarshalRecord b = .ok old)
    (hupd : UpdateCert H now w id fieldName v = .ok w') :
    ∃ b' new, getState H w' id = .ok (some b') ∧ H.unmarshalRecord b' = .ok new
      ∧ new.ID = old.ID ∧ new.Metadata = old.Metadata
      ∧ ToLower H.lowerTable (TrimSpace fieldName) ∈ fieldWhitelist
      ∧ (ToLower H.lowerTable (TrimSpace fieldName) = "name" →
          new.Name = v
          ∧ { new with Name := old.Name, Hash := old.Hash, Timestamp := old.Timestamp } = old)
      ∧ (ToLower H.lowerTable (TrimSpace fieldName) = "dateofbirth" →
          new.DateOfBirth = v
          ∧ { new with DateOfBirth := old.DateOfBirth, Hash := old.Hash, Timestamp := old.Timestamp } = old)
      ∧ (ToLower H.lowerTable (TrimSpace fieldName) = "timeofbirth" →
          new.TimeOfBirth = v
          ∧ { new with TimeOfBirth := old.TimeOfBirth, Hash := old.Hash, Timestamp := old.Timestamp } = old)
      ∧ (ToLower H.lowerTable (TrimSpace fieldName) = "placeofbirth" →
          new.PlaceOfBirth = v
          ∧ { new with PlaceOfBirth := old.PlaceOfBirth, Hash := old.Hash, Timestamp := old.Timestamp } = old)
      ∧ (ToLower H.lowerTable (TrimSpace fieldName) = "fathername" →
          new.FatherName = v
          ∧ { new with FatherName := old.FatherName, Hash := old.Hash, Timestamp := old.Timestamp } = old)
      ∧ (ToLower H.lowerTable (TrimSpace fieldName) = "mothername" →
          new.MotherName = v
          ∧ { new with MotherName := old.MotherName, Hash := old.Hash, Timestamp := old.Timestamp } = old)
      ∧ (ToLower H.lowerTable (TrimSpace fieldName) = "owner" →
          new.Owner = v
          ∧ { new with Owner := old.Owner, Hash := old.Hash, Timestamp := old.Timestamp } = old)
      ∧ (ToLower H.lowerTable (TrimSpace fieldName) = "source" →
          new.Source = v
          ∧ { new with Source := old.Source, Hash := old.Hash, Timestamp := old.Timestamp } = old)
      ∧ ∀ k, k ≠ id → w'.lookup k = w.lookup k ∧ getState H w' k = getState H w k := by
  obtain ⟨b0, old0, changed, b', hget, hold0, hset, hmar, hput⟩ := UpdateCert_ok hupd
  have hget' := getState_after_put (getState_ok hget).1 hput
  have hrec := hJ _ _ hmar
  rw [hpresent] at hget
  injection hget with h1
  injection h1 with h2
  subst h2
  rw [hold] at hold0
  injection hold0 with h3
  subst h3
  have hwl : ToLower H.lowerTable (TrimSpace fieldName) ∈ fieldWhitelist := by
    by_contra hn
    rw [(setField_eq_none _ old v).2 hn] at hset
    cases hset
  have hid : (rehash now changed).ID = old.ID ∧ (rehash now changed).Metadata = old.Metadata := by
    unfold setField at hset
    split_ifs at hset <;>
    · injection hset with hset
      subst hset
      exact ⟨by simp only [rehash], by simp only [rehash]⟩
  refine ⟨b', rehash now changed, hget', hrec, hid.1, hid.2, hwl, ?_, ?_, ?_, ?_, ?_, ?_, ?_, ?_,
    fun k hk => getState_store_other hput hk⟩ <;>
  · intro hkey
    rw [hkey] at hset
    first
      | rw [setField_name] at hset
      | rw [setField_dateofbirth] at hset
      | rw [setField_timeofbirth] at hset
      | rw [setField_placeofbirth] at hset
      | rw [setField_fathername] at hset
      | rw [setField_mothername] at hset
      | rw [setField_owner] at hset
      | rw [setField_source] at hset
    injection hset with hset
    subst hset
    refine ⟨by simp only [rehash], ?_⟩
    cases old
    simp only [rehash]

/-- The frame on the worked example: renaming Jane Doe's certificate to a text
changes the
name, keeps id, owner, source and metadata, and leaves other keys absent. -/
theorem update_frame_witness :
    demoHost.JsonFaithful
    ∧ getState demoHost janeWorld "cert1" = .ok (some (encodeRecord janeRecord))
    ∧ demoHost.unmarshalRecord (encodeRecord janeRecord) = .ok janeRecord
    ∧ UpdateCert demoHost laterTime janeWorld "cert1" "name" "New Name" = .ok renamedWorld
    ∧ ∃ b' new, getState demoHost renamedWorld "cert1" = .ok (some b')
      ∧ demoHost.unmarshalRecord b' = .ok new
      ∧ new.Name = "New Name" ∧ new.ID = "cert1" ∧ new.Metadata = some []
      ∧ { new with Name := "Jane Doe", Hash := janeRecord.Hash,
                   Timestamp := "2024-05-01T10:00:00Z" } = janeRecord
      ∧ getState demoHost renamedWorld "cert2" = getState demoHost janeWorld "cert2" := by
  obtain ⟨b', new, h1, h2, h3, h4, _, hname, _, _, _, _, _, _, _, hother⟩ :=
    update_frame demoHost demoHost_faithful laterTime janeWorld renamedWorld
      "cert1" "name" "New Name" _ janeRecord getState_jane unmarshal_jane update_jane_name
  exact ⟨demoHost_faithful, getState_jane, unmarshal_jane, update_jane_name, b', new, h1, h2,
    (hname rfl).1, h3, h4, (hname rfl).2, (hother "cert2" (by decide)).2⟩

theorem update_tampered_owner :
    UpdateCert demoHost laterTime tamperedWorld "cert1" "owner" "NewOwner" = .ok reownedWorld := by
  rfl

theorem getState_tampered :
    getState demoHost tamperedWorld "cert1" = .ok (some (encodeRecord tamperedRecord)) := by
  rfl

theorem unmarshal_tampered :
    demoHost.unmarshalRecord (encodeRecord tamperedRecord) = .ok tamperedRecord :=
  demoHost_faithful _ _ rfl

theorem tampered_hash_wrong :
    tamperedRecord.Hash ≠ computeCertHash tamperedRecord.Name tamperedRecord.DateOfBirth
      tamperedRecord.TimeOfBirth tamperedRecord.PlaceOfBirth tamperedRecord.FatherName
      tamperedRecord.MotherName "v1" := by
  decide

/-- On well-formed UTF-8 `UpdateCert` re-establishes the hash whatever the
prior state. When the new value is a text and the JSON law holds, for a present
id whose stored bytes parse, with any stored `Hash`, a successful
`UpdateCert` (its field name is then whitelisted) stores a record on which
`VerifyCert` reports `hashMatch = true`; so when the stored `Hash` did not match
the stored essential fields, an `owner` or `source` update changes the stored
`Hash`, to the canonical hash of those unchanged fields. -/
theorem update_reestablishes_hash (H : Host) (hJ : H.JsonFaithful) (now : String)
    (w w' : World) (id fieldName v : String) (b : Bytes) (old : CertRecord)
    (hpresent : getState H w id = .ok (some b)) (hold : H.unmarshalRecord b = .ok old)
    (hupd : UpdateCert H now w id fieldName v = .ok w') :
    ToLower H.lowerTable (TrimSpace fieldName) ∈ fieldWhitelist
    ∧ ∃ b' new, getState H w' id = .ok (some b') ∧ H.unmarshalRecord b' = .ok new
      ∧ (∃ resp, VerifyCert H w' id = .ok resp ∧ resp.record = new ∧ resp.hashMatch = true)
      ∧ ((ToLower H.lowerTable (TrimSpace fieldName) = "owner"
            ∨ ToLower H.lowerTable (TrimSpace fieldName) = "source") →
          old.Hash ≠ computeCertHash old.Name old.DateOfBirth old.TimeOfBirth old.PlaceOfBirth
            old.FatherName old.MotherName "v1" →
          new.Hash = computeCertHash old.Name old.DateOfBirth old.TimeOfBirth old.PlaceOfBirth
            old.FatherName old.MotherName "v1"
          ∧ new.Hash ≠ old.Hash) := by
  obtain ⟨b0, old0, changed, b', hget, hold0, hset, hget', hrec, hver⟩ := UpdateCert_stored hJ hupd
  rw [hpresent] at hget
  injection hget with h1
  injection h1 with h2
  subst h2
  rw [hold] at hold0
  injection hold0 with h3
  subst h3
  have hwl : ToLower H.lowerTable (TrimSpace fieldName) ∈ fieldWhitelist := by
    by_contra hn
    rw [(setField_eq_none _ old v).2 hn] at hset
    cases hset
  refine ⟨hwl, b', rehash now changed, hget', hrec, hver, fun hkey hbad => ?_⟩
  have hnew : (rehash now changed).Hash = computeCertHash old.Name old.DateOfBirth
      old.TimeOfBirth old.PlaceOfBirth old.FatherName old.MotherName "v1" := by
    rcases hkey with hk | hk
    · rw [hk, setField_owner] at hset
      injection hset with hset
      subst hset
      exact rehash_Hash now { old with Owner := v }
    · rw [hk, setField_source] at hset
      injection hset with hset
      subst hset
      exact rehash_Hash now { old with Source := v }
  exact ⟨hnew, fun h => hbad (h.symm.trans hnew)⟩

/-- Re-establishing the hash on the worked example: the certificate whose hash
was overwritten with
`00` gets its canonical hash back from an owner update, and then verifies. -/
theorem update_reestablishes_hash_witness :
    demoHost.JsonFaithful
    ∧ getState demoHost tamperedWorld "cert1" = .ok (some (encodeRecord tamperedRecord))
    ∧ demoHost.unmarshalRecord (encodeRecord tamperedRecord) = .ok tamperedRecord
    ∧ UpdateCert demoHost laterTime tamperedWorld "cert1" "owner" "NewOwner" = .ok reownedWorld
    ∧ ∃ resp, VerifyCert demoHost reownedWorld "cert1" = .ok resp ∧ resp.hashMatch = true
      ∧ resp.record.Hash ≠ "00" := by
  obtain ⟨_, b', new, _, _, ⟨resp, hv, hr, hm⟩, hne⟩ :=
    update_reestablishes_hash demoHost demoHost_faithful laterTime tamperedWorld reownedWorld
      "cert1" "owner" "NewOwner" _ tamperedRecord getState_tampered unmarshal_tampered
      update_tampered_owner
  exact ⟨demoHost_faithful, getState_tampered, unmarshal_tampered, update_tampered_owner, resp,
    hv, hm, hr ▸ (hne (Or.inl rfl) tampered_hash_wrong).2⟩

/-! ## The probe of `VerifyCert`: C11 -/

theorem decodeRecord_append (r : CertRecord) (t : Bytes) :
    decodeRecord (encodeRecord r ++ t) = some r := by
  simp only [encodeRecord, decodeRecord, List.append_assoc, decodeString_encodeString,
    decodeMetadata_encodeMetadata]

theorem v2_digest_differs :
    computeCertHash v2Record.Name v2Record.DateOfBirth v2Record.TimeOfBirth
      v2Record.PlaceOfBirth v2Record.FatherName v2Record.MotherName "v1" ≠ v2Record.Hash := by
  decide

/-- C11, as stated, fails: `CertRecord` stores no schema version. Bytes that
carry version `v2` and the hash of the essential fields under `v2` parse to the
record, and `VerifyCert`, hashing under the literal `v1`, reports
`hashMatch = false`; and for a present id whose bytes do not parse `VerifyCert`
returns an error, not a record. -/
theorem verify_ignores_stored_version :
    (getState demoHost v2World "cert1" = .ok (some (versionedBytes v2Record "v2"))
      ∧ demoHost.unmarshalRecord (versionedBytes v2Record "v2") = .ok v2Record
      ∧ v2Record.Hash = computeCertHash v2Record.Name v2Record.DateOfBirth v2Record.TimeOfBirth
          v2Record.PlaceOfBirth v2Record.FatherName v2Record.MotherName "v2"
      ∧ ∃ resp, VerifyCert demoHost v2World "cert1" = .ok resp ∧ resp.record = v2Record
          ∧ resp.hashMatch = false)
    ∧ (getState demoHost brokenWorld "cert1" = .ok (some [7])
      ∧ VerifyCert demoHost brokenWorld "cert1"
          = .error (.SerializationError "unexpected end of input")) := by
  have hget : getState demoHost v2World "cert1" = .ok (some (versionedBytes v2Record "v2")) := rfl
  have hrec : demoHost.unmarshalRecord (versionedBytes v2Record "v2") = .ok v2Record := by
    simp only [demoHost, versionedBytes, decodeRecord_append]
  refine ⟨⟨hget, hrec, rfl, _, VerifyCert_of_record hget hrec, rfl, ?_⟩, rfl, rfl⟩
  exact decide_eq_false v2_digest_differs

/-- C11, amended: for a present id whose stored bytes parse, `VerifyCert`
returns the parsed stored record unchanged, with `hashMatch` true exactly when
the stored `Hash` equals `computeCertHash` of the stored essential fields under
the fixed version literal `v1`, and an explanation that ends with that
recomputed digest; the store is left as it was. When the bytes do not parse it
returns the parse error. -/
theorem verify_probe (H : Host) (w : World) (id : String) (b : Bytes)
    (hpresent : getState H w id = .ok (some b)) :
    (∀ rec, H.unmarshalRecord b = .ok rec →
      ∃ resp, VerifyCert H w id = .ok resp ∧ resp.found = true ∧ resp.record = rec
        ∧ (resp.hashMatch = true ↔
            rec.Hash = computeCertHash rec.Name rec.DateOfBirth rec.TimeOfBirth
              rec.PlaceOfBirth rec.FatherName rec.MotherName "v1")
        ∧ resp.hashCheckExplanation
            = "Hash recomputado a partir dos campos essenciais: "
              ++ computeCertHash rec.Name rec.DateOfBirth rec.TimeOfBirth rec.PlaceOfBirth
                  rec.FatherName rec.MotherName "v1"
        ∧ (computeCertHash rec.Name rec.DateOfBirth rec.TimeOfBirth rec.PlaceOfBirth
            rec.FatherName rec.MotherName "v1").data <:+ resp.hashCheckExplanation.data)
    ∧ (∀ err, H.unmarshalRecord b = .error err →
        VerifyCert H w id = .error (.SerializationError err))
    ∧ Call.after H w (.verify id) = w := by
  refine ⟨fun rec hrec => ⟨_, VerifyCert_of_record hpresent hrec, rfl, rfl, ?_, rfl, ?_⟩,
    fun err herr => ?_, rfl⟩
  · simp only [decide_eq_true_eq]
    exact eq_comm
  · simp only [String.data_append]
    exact List.suffix_append _ _
  · simp [VerifyCert, hpresent, herr]

/-- C11, amended, on the worked example: Jane Doe's registered certificate is
returned as stored, with `hashMatch = true`. -/
theorem verify_probe_witness :
    getState demoHost janeWorld "cert1" = .ok (some (encodeRecord janeRecord))
    ∧ ∃ resp, VerifyCert demoHost janeWorld "cert1" = .ok resp ∧ resp.record = janeRecord
      ∧ resp.hashMatch = true := by
  obtain ⟨resp, h1, _, h2, h3, _, _⟩ :=
    (verify_probe demoHost janeWorld "cert1" _ getState_jane).1 janeRecord unmarshal_jane
  exact ⟨getState_jane, resp, h1, h2, h3.2 rfl⟩

/-! ## Metadata and timestamps: C16, C17 -/

theorem utf8Rune_ne_nil (c : Char) : utf8Rune c ≠ [] := by
  unfold utf8Rune
  simp only
  split_ifs <;> simp

theorem utf8Bytes_length_pos (s : String) (hs : s ≠ "") : (utf8Bytes s).length > 0 := by
  obtain ⟨data⟩ := s
  cases data with
  | nil => exact absurd rfl hs
  | cons c cs =>
    have h := utf8Rune_ne_nil c
    simp only [utf8Bytes, List.flatMap_cons, List.length_append]
    have : 0 < (utf8Rune c).length := List.length_pos.2 h
    omega

/-- C16: the metadata text `null` is not refused. With the id absent, the empty
text registers a record with the empty mapping and the text `[1]` is refused
with InvalidMetadata; but `null`, non-empty and no JSON mapping, which
`json.Unmarshal` takes without error leaving the map nil, is not refused:
`RegisterCert` succeeds and stores a record with nil metadata. -/
theorem register_accepts_null_metadata :
    getState demoHost [] "cert1" = .ok none
    ∧ (RegisterCert demoHost "2024-05-01T10:00:00Z" [] "cert1" "Jane Doe" "1990-01-01" "08:00"
        "City A" "John Doe" "Mary Doe" "OwnerA" "CartórioX" "" = .ok janeWorld
      ∧ janeRecord.Metadata = some [])
    ∧ RegisterCert demoHost "2024-05-01T10:00:00Z" [] "cert1" "Jane Doe" "1990-01-01" "08:00"
        "City A" "John Doe" "Mary Doe" "OwnerA" "CartórioX" "[1]"
        = .error (.InvalidMetadata "metadata JSON inválido: unsupported metadata")
    ∧ "null" ≠ "" ∧ startsJsonObject "null" = false
    ∧ demoHost.unmarshalMetadata (utf8Bytes "null") = .ok none
    ∧ RegisterCert demoHost "2024-05-01T10:00:00Z" [] "cert1" "Jane Doe" "1990-01-01" "08:00"
        "City A" "John Doe" "Mary Doe" "OwnerA" "CartórioX" "null" = .ok nullWorld
    ∧ ∃ b rec, getState demoHost nullWorld "cert1" = .ok (some b)
        ∧ demoHost.unmarshalRecord b = .ok rec ∧ rec.Metadata = none := by
  refine ⟨rfl, ⟨rfl, rfl⟩, rfl, by decide, by decide, rfl, rfl, _, _, rfl,
    demoHost_faithful _ _ rfl, rfl⟩

/-- Metadata handling in terms of the host's `json.Unmarshal`: with the id
absent, `RegisterCert` with an empty `metadataJSON` never fails with InvalidMetadata and, when it succeeds, stores a
record whose `Metadata` is the empty mapping; with a non-empty `metadataJSON` it
fails with InvalidMetadata, the store unchanged and the id still absent, exactly
when `json.Unmarshal` into the string map rejects the text; a text it accepts,
`null` included, is registered with the map it yields. -/
theorem register_metadata_handling (H : Host) (now : String) (w : World)
    (id name dob tob place father mother owner source metadataJSON : String)
    (habsent : getState H w id = .ok none) :
    (metadataJSON = "" →
      (∀ msg, RegisterCert H now w id name dob tob place father mother owner source metadataJSON
          ≠ .error (.InvalidMetadata msg))
      ∧ ∀ w', RegisterCert H now w id name dob tob place father mother owner source metadataJSON
          = .ok w' →
        ∃ b rec, getState H w' id = .ok (some b) ∧ H.marshalRecord rec = .ok b
          ∧ rec = newCertRecord now id name dob tob place father mother owner source (some [])
          ∧ rec.Metadata = some [])
    ∧ (metadataJSON ≠ "" →
        ((∃ msg, RegisterCert H now w id name dob tob place father mother owner source
              metadataJSON = .error (.InvalidMetadata msg))
          ↔ ∃ err, H.unmarshalMetadata (utf8Bytes metadataJSON) = .error err)
        ∧ (∀ err, H.unmarshalMetadata (utf8Bytes metadataJSON) = .error err →
            RegisterCert H now w id name dob tob place father mother owner source metadataJSON
                = .error (.InvalidMetadata ("metadata JSON inválido: " ++ err))
            ∧ Call.after H w (.register now id name dob tob place father mother owner source
                metadataJSON) = w
            ∧ getState H (Call.after H w (.register now id name dob tob place father mother
                owner source metadataJSON)) id = .ok none)
        ∧ (∀ m w', H.unmarshalMetadata (utf8Bytes metadataJSON) = .ok m →
            RegisterCert H now w id name dob tob place father mother owner source metadataJSON
                = .ok w' →
            ∃ b rec, getState H w' id = .ok (some b) ∧ H.marshalRecord rec = .ok b
              ∧ rec = newCertRecord now id name dob tob place father mother owner source m
              ∧ rec.Metadata = m)) := by
  have hstored : ∀ w', RegisterCert H now w id name dob tob place father mother owner source
      metadataJSON = .ok w' →
      ∃ metadata b, (if (utf8Bytes metadataJSON).length > 0
            then H.unmarshalMetadata (utf8Bytes metadataJSON) else .ok (some [])) = .ok metadata
        ∧ getState H w' id = .ok (some b)
        ∧ H.marshalRecord
            (newCertRecord now id name dob tob place father mother owner source metadata)
            = .ok b := by
    intro w' hreg
    obtain ⟨metadata, b, hget, hmeta, hmar, hput⟩ := RegisterCert_ok hreg
    exact ⟨metadata, b, hmeta, getState_after_put (getState_ok hget).1 hput, hmar⟩
  have hbad : ∀ err, (if (utf8Bytes metadataJSON).length > 0
        then H.unmarshalMetadata (utf8Bytes metadataJSON) else .ok (some [])) = .error err →
      RegisterCert H now w id name dob tob place father mother owner source metadataJSON
        = .error (.InvalidMetadata ("metadata JSON inválido: " ++ err)) := by
    intro err herr
    simp only [RegisterCert, habsent, herr]
  have hgood : ∀ m, (if (utf8Bytes metadataJSON).length > 0
        then H.unmarshalMetadata (utf8Bytes metadataJSON) else .ok (some [])) = .ok m →
      ∀ msg, RegisterCert H now w id name dob tob place father mother owner source metadataJSON
        ≠ .error (.InvalidMetadata msg) := by
    intro m hm msg
    simp only [RegisterCert, habsent, hm]
    split
    · simp
    · split <;> simp
  refine ⟨fun hempty => ?_, fun hne => ?_⟩
  · have h0 : (if (utf8Bytes metadataJSON).length > 0
          then H.unmarshalMetadata (utf8Bytes metadataJSON) else .ok (some []))
        = .ok (some []) := by
      subst hempty
      rfl
    refine ⟨hgood _ h0, fun w' hreg => ?_⟩
    obtain ⟨metadata, b, hmeta, hget, hmar⟩ := hstored w' hreg
    rw [h0] at hmeta
    injection hmeta with hmeta
    subst hmeta
    exact ⟨b, _, hget, hmar, rfl, rfl⟩
  · have hpos := utf8Bytes_length_pos metadataJSON hne
    have h0 : (if (utf8Bytes metadataJSON).length > 0
          then H.unmarshalMetadata (utf8Bytes metadataJSON) else .ok (some []))
        = H.unmarshalMetadata (utf8Bytes metadataJSON) := if_pos hpos
    rw [h0] at hbad hgood hstored
    refine ⟨⟨?_, fun ⟨err, herr⟩ => ⟨_, hbad err herr⟩⟩, fun err herr => ?_, fun m w' hm hreg => ?_⟩
    · rintro ⟨msg, hmsg⟩
      cases hm : H.unmarshalMetadata (utf8Bytes metadataJSON) with
      | error err => exact ⟨err, rfl⟩
      | ok m => exact absurd hmsg (hgood m hm msg)
    · have h1 := hbad err herr
      have h2 : Call.after H w (.register now id name dob tob place father mother owner source
          metadataJSON) = w := by simp [Call.after, h1]
      exact ⟨h1, h2, h2.symm ▸ habsent⟩
    · obtain ⟨metadata, b, hmeta, hget, hmar⟩ := hstored w' hreg
      rw [hm] at hmeta
      injection hmeta with hmeta
      subst hmeta
      exact ⟨b, _, hget, hmar, rfl, rfl⟩

/-- Metadata handling on the small host: the text `[1]` is rejected with
InvalidMetadata and `cert1` stays absent, and the empty text is never rejected
as metadata. -/
theorem register_metadata_handling_witness :
    getState demoHost [] "cert1" = .ok none
    ∧ RegisterCert demoHost "2024-05-01T10:00:00Z" [] "cert1" "Jane Doe" "1990-01-01" "08:00"
        "City A" "John Doe" "Mary Doe" "OwnerA" "CartórioX" "[1]"
        = .error (.InvalidMetadata "metadata JSON inválido: unsupported metadata")
    ∧ getState demoHost (Call.after demoHost [] (.register "2024-05-01T10:00:00Z" "cert1"
        "Jane Doe" "1990-01-01" "08:00" "City A" "John Doe" "Mary Doe" "OwnerA" "CartórioX"
        "[1]")) "cert1" = .ok none
    ∧ ∀ msg, RegisterCert demoHost "2024-05-01T10:00:00Z" [] "cert1" "Jane Doe" "1990-01-01"
        "08:00" "City A" "John Doe" "Mary Doe" "OwnerA" "CartórioX" ""
        ≠ .error (.InvalidMetadata msg) :=
  have h := ((register_metadata_handling demoHost "2024-05-01T10:00:00Z" [] "cert1" "Jane Doe"
    "1990-01-01" "08:00" "City A" "John Doe" "Mary Doe" "OwnerA" "CartórioX" "[1]" rfl).2
      (by decide)).2.1 "unsupported metadata" rfl
  ⟨rfl, h.1, h.2.2,
   ((register_metadata_handling demoHost "2024-05-01T10:00:00Z" [] "cert1" "Jane Doe"
    "1990-01-01" "08:00" "City A" "John Doe" "Mary Doe" "OwnerA" "CartórioX" "" rfl).1 rfl).1⟩

theorem newCertRecord_Timestamp (now id name dob tob place father mother owner source : String)
    (metadata : Metadata) :
    (newCertRecord now id name dob tob place father mother owner source metadata).Timestamp
      = now := rfl

theorem rehash_Timestamp (now : String) (rec : CertRecord) :
    (rehash now rec).Timestamp = now := by
  simp only [rehash]

/-- A successful write stores, under the id, a record stamped with the clock
reading of that call. -/
theorem WritesCert.stamped {H : Host} (hJ : H.JsonFaithful) {now id : String} {w w' : World}
    (h : WritesCert H now w id w') :
    ∃ b rec, getState H w' id = .ok (some b) ∧ H.unmarshalRecord b = .ok rec
      ∧ rec.Timestamp = now := by
  rcases h with ⟨name, dob, tob, place, father, mother, owner, source, metadataJSON, hreg⟩
    | ⟨fieldName, newValue, hupd⟩
  · obtain ⟨metadata, b, hget, _, hmar, hput⟩ := RegisterCert_ok hreg
    exact ⟨b, _, getState_after_put (getState_ok hget).1 hput, hJ _ _ hmar,
      newCertRecord_Timestamp ..⟩
  · obtain ⟨_, _, changed, b', hget, _, _, hmar, hput⟩ := UpdateCert_ok hupd
    exact ⟨b', _, getState_after_put (getState_ok hget).1 hput, hJ _ _ hmar,
      rehash_Timestamp now changed⟩

theorem earlierTime_lt : "2024-04-30T10:00:00Z" < "2024-05-01T10:00:00Z" :=
  String.lt_iff_toList_lt.2 (by decide)

theorem laterTime_ge : "2024-05-01T10:00:00Z" ≤ "2024-05-02T10:00:00Z" :=
  String.le_iff_toList_le.2 (by decide)

theorem update_jane_backdated :
    UpdateCert demoHost earlierTime janeWorld "cert1" "owner" "NewOwner" = .ok backdatedWorld := by
  rfl

/-- C17, as stated, fails: the code stores the clock reading of each call and
never compares it with the stored `Timestamp`. After a registration at
`2024-05-01T10:00:00Z`, a successful update made when the clock reads
`2024-04-30T10:00:00Z` stores that earlier timestamp. -/
theorem timestamp_can_decrease :
    RegisterCert demoHost "2024-05-01T10:00:00Z" [] "cert1" "Jane Doe" "1990-01-01" "08:00"
      "City A" "John Doe" "Mary Doe" "OwnerA" "CartórioX" "{}" = .ok janeWorld
    ∧ UpdateCert demoHost earlierTime janeWorld "cert1" "owner" "NewOwner" = .ok backdatedWorld
    ∧ ∃ b1 r1 b2 r2,
        getState demoHost janeWorld "cert1" = .ok (some b1)
        ∧ demoHost.unmarshalRecord b1 = .ok r1
        ∧ getState demoHost backdatedWorld "cert1" = .ok (some b2)
        ∧ demoHost.unmarshalRecord b2 = .ok r2
        ∧ r1.Timestamp = "2024-05-01T10:00:00Z" ∧ r2.Timestamp = "2024-04-30T10:00:00Z"
        ∧ r2.Timestamp < r1.Timestamp := by
  refine ⟨register_jane, update_jane_backdated, _, _, _, _, getState_jane, unmarshal_jane, rfl,
    demoHost_faithful _ _ rfl, rfl, ?_, ?_⟩
  · simp only [rehash, earlierTime]
  · show "2024-04-30T10:00:00Z" < "2024-05-01T10:00:00Z"
    exact earlierTime_lt

/-- C17, amended: every successful `RegisterCert` or `UpdateCert` stores, as the
`Timestamp` of the record, the clock reading of that call (an RFC3339 UTC text,
compared as text); so for two successful writes of the same id the stored
timestamps are ordered as the two clock readings are: non-decreasing when the
clock is, decreasing when the clock steps back. -/
theorem timestamps_follow_clock (H : Host) (hJ : H.JsonFaithful) (id : String)
    (now1 now2 : String) (w1 w1' w2 w2' : World)
    (hfirst : WritesCert H now1 w1 id w1') (hsecond : WritesCert H now2 w2 id w2') :
    ∃ b1 r1 b2 r2,
      getState H w1' id = .ok (some b1) ∧ H.unmarshalRecord b1 = .ok r1
      ∧ getState H w2' id = .ok (some b2) ∧ H.unmarshalRecord b2 = .ok r2
      ∧ r1.Timestamp = now1 ∧ r2.Timestamp = now2
      ∧ (r1.Timestamp ≤ r2.Timestamp ↔ now1 ≤ now2)
      ∧ (r2.Timestamp < r1.Timestamp ↔ now2 < now1) := by
  obtain ⟨b1, r1, hg1, hr1, ht1⟩ := hfirst.stamped hJ
  obtain ⟨b2, r2, hg2, hr2, ht2⟩ := hsecond.stamped hJ
  exact ⟨b1, r1, b2, r2, hg1, hr1, hg2, hr2, ht1, ht2, by rw [ht1, ht2], by rw [ht1, ht2]⟩

/-- C17, amended, on the worked example: the registration and the later owner
change store their own clock readings, in increasing order. -/
theorem timestamps_follow_clock_witness :
    demoHost.JsonFaithful
    ∧ WritesCert demoHost "2024-05-01T10:00:00Z" [] "cert1" janeWorld
    ∧ WritesCert demoHost laterTime janeWorld "cert1" reownedWorld
    ∧ ∃ r1 r2, demoHost.unmarshalRecord (encodeRecord janeRecord) = .ok r1
        ∧ (∃ b2, getState demoHost reownedWorld "cert1" = .ok (some b2)
            ∧ demoHost.unmarshalRecord b2 = .ok r2)
        ∧ r1.Timestamp = "2024-05-01T10:00:00Z" ∧ r2.Timestamp = laterTime
        ∧ r1.Timestamp ≤ r2.Timestamp := by
  have hA : WritesCert demoHost "2024-05-01T10:00:00Z" [] "cert1" janeWorld :=
    Or.inl ⟨_, _, _, _, _, _, _, _, _, register_jane⟩
  have hB : WritesCert demoHost laterTime janeWorld "cert1" reownedWorld :=
    Or.inr ⟨_, _, update_jane_owner⟩
  obtain ⟨b1, r1, b2, r2, hg1, hr1, hg2, hr2, ht1, ht2, hle, _⟩ :=
    timestamps_follow_clock demoHost demoHost_faithful "cert1" _ _ _ _ _ _ hA hB
  have hb1 : b1 = encodeRecord janeRecord := by
    rw [getState_jane] at hg1
    injection hg1 with h
    injection h with h
    exact h.symm
  subst hb1
  exact ⟨demoHost_faithful, hA, hB, r1, r2, hr1, ⟨b2, hg2, hr2⟩, ht1, ht2, hle.2 laterTime_ge⟩

/-! ## Byte strings: agreement with the text model on well-formed UTF-8 -/

theorem char_toNat_valid (c : Char) :
    c.toNat < 0xD800 ∨ (0xDFFF < c.toNat ∧ c.toNat < 0x110000) := by
  have h := c.valid
  simp only [UInt32.isValidChar, Nat.isValidChar] at h
  exact h

theorem decodeRune_utf8Rune (c : Char) (rest : List Nat) :
    ∃ b0 tail, utf8Rune c ++ rest = b0 :: tail ∧ decodeRune b0 tail = (.rune c, rest) := by
  have hv := char_toNat_valid c
  have hc : Char.ofNat c.toNat = c := Char.ofNat_toNat c
  unfold utf8Rune
  simp only
  by_cases h1 : c.toNat < 0x80
  · refine ⟨c.toNat, rest, by simp [h1], ?_⟩
    simp [decodeRune, h1, hc]
  · by_cases h2 : c.toNat < 0x800
    · refine ⟨0xC0 + c.toNat / 64, (0x80 + c.toNat % 64) :: rest, by simp [h1, h2], ?_⟩
      have e : (0xC0 + c.toNat / 64) % 32 * 64 + (0x80 + c.toNat % 64) % 64 = c.toNat := by omega
      simp only [decodeRune]
      rw [if_neg (by omega), if_neg (by omega), if_pos (by omega), if_pos (by omega), e, hc]
    · by_cases h3 : c.toNat < 0x10000
      · refine ⟨0xE0 + c.toNat / 4096,
          (0x80 + c.toNat / 64 % 64) :: (0x80 + c.toNat % 64) :: rest, by simp [h1, h2, h3], ?_⟩
        have e : (0xE0 + c.toNat / 4096) % 16 * 4096 + (0x80 + c.toNat / 64 % 64) % 64 * 64
            + (0x80 + c.toNat % 64) % 64 = c.toNat := by omega
        simp only [decodeRune]
        rw [if_neg (by omega), if_neg (by omega), if_neg (by omega), if_pos (by omega),
          if_pos (by split_ifs <;> omega), e, hc]
      · refine ⟨0xF0 + c.toNat / 262144,
          (0x80 + c.toNat / 4096 % 64) :: (0x80 + c.toNat / 64 % 64) :: (0x80 + c.toNat % 64)
            :: rest, by simp [h1, h2, h3], ?_⟩
        have e : (0xF0 + c.toNat / 262144) % 8 * 262144 + (0x80 + c.toNat / 4096 % 64) % 64 * 4096
            + (0x80 + c.toNat / 64 % 64) % 64 * 64 + (0x80 + c.toNat % 64) % 64 = c.toNat := by
          omega
        simp only [decodeRune]
        rw [if_neg (by omega), if_neg (by omega), if_neg (by omega), if_neg (by omega),
          if_pos (by omega), if_pos (by split_ifs <;> omega), e, hc]

theorem utf8Rune_length_pos (c : Char) : 0 < (utf8Rune c).length := by
  unfold utf8Rune
  simp only
  split_ifs <;> simp

theorem decodeItems_utf8 (l : List Char) (rest : List Nat) (fuel : Nat) (hf : l.length ≤ fuel) :
    decodeItems fuel (l.flatMap utf8Rune ++ rest)
      = l.map Utf8Item.rune ++ decodeItems (fuel - l.length) rest := by
  induction l generalizing fuel with
  | nil => simp
  | cons c cs ih =>
    obtain ⟨b0, tail, hb, hd⟩ := decodeRune_utf8Rune c (cs.flatMap utf8Rune ++ rest)
    cases fuel with
    | zero => simp at hf
    | succ n =>
      simp only [List.flatMap_cons, List.append_assoc, hb, decodeItems, hd, List.map_cons,
        List.cons_append, List.length_cons, Nat.add_sub_add_right]
      rw [ih n (by simpa using hf)]

theorem goItems_utf8Bytes (s : String) : goItems (utf8Bytes s) = s.data.map Utf8Item.rune := by
  have hlen : s.data.length ≤ (s.data.flatMap utf8Rune).length := by
    induction s.data with
    | nil => simp
    | cons c cs ih =>
      have := utf8Rune_length_pos c
      simp only [List.flatMap_cons, List.length_append, List.length_cons]
      omega
  have h := decodeItems_utf8 s.data [] _ hlen
  simp only [List.append_nil] at h
  simp only [goItems, utf8Bytes, h]
  generalize (s.data.flatMap utf8Rune).length - s.data.length = k
  cases k <;> simp [decodeItems]

theorem toValidUTF8_utf8Bytes (s : String) : toValidUTF8 (utf8Bytes s) = s := by
  apply String.ext
  simp only [toValidUTF8, goItems_utf8Bytes, List.map_map]
  have : (Utf8Item.coerced ∘ Utf8Item.rune) = id := rfl
  rw [this, List.map_id]

theorem trimLeftItems_map (l : List Char) :
    trimLeftItems (l.map Utf8Item.rune) = (trimLeft l).map Utf8Item.rune := by
  induction l with
  | nil => rfl
  | cons c cs ih =>
    by_cases hc : isSpace c = true <;> simp [trimLeftItems, trimLeft, Utf8Item.isSpace, hc, ih]

theorem itemBytes_map (l : List Char) : itemBytes (l.map Utf8Item.rune) = l.flatMap utf8Rune := by
  induction l with
  | nil => rfl
  | cons c cs ih =>
    simp only [itemBytes, List.map_cons, List.flatMap_cons, Utf8Item.bytes] at ih ⊢
    rw [ih]

theorem TrimSpaceBytes_utf8Bytes (s : String) :
    TrimSpaceBytes (utf8Bytes s) = utf8Bytes (TrimSpace s) := by
  unfold TrimSpaceBytes
  rw [goItems_utf8Bytes, trimLeftItems_map, ← List.map_reverse, trimLeftItems_map,
    ← List.map_reverse, itemBytes_map]
  rfl

theorem fieldsLoopItems_map (l : List Char) (cur : Option (List Char)) :
    fieldsLoopItems (l.map Utf8Item.rune) (cur.map (List.map Utf8Item.rune))
      = (fieldsLoop l cur).map (List.map Utf8Item.rune) := by
  induction l generalizing cur with
  | nil => cases cur <;> simp [fieldsLoopItems, fieldsLoop]
  | cons c cs ih =>
    cases cur with
    | none =>
      by_cases hc : isSpace c = true
      · simpa [fieldsLoopItems, fieldsLoop, Utf8Item.isSpace, hc] using ih none
      · simpa [fieldsLoopItems, fieldsLoop, Utf8Item.isSpace, hc] using ih (some [c])
    | some w =>
      by_cases hc : isSpace c = true
      · simpa [fieldsLoopItems, fieldsLoop, Utf8Item.isSpace, hc] using ih none
      · simpa [fieldsLoopItems, fieldsLoop, Utf8Item.isSpace, hc] using ih (some (w ++ [c]))

theorem FieldsBytes_utf8Bytes (s : String) :
    FieldsBytes (utf8Bytes s) = (Fields s).map utf8Bytes := by
  have h := fieldsLoopItems_map s.data none
  simp only [Option.map_none'] at h
  simp only [FieldsBytes, goItems_utf8Bytes, h, Fields, List.map_map]
  apply List.map_congr_left
  intro w _
  simp [itemBytes_map, utf8Bytes]

theorem flatMap_joinRunes (ws : List (List Char)) (sp : List Char) :
    (joinRunes ws sp).flatMap utf8Rune
      = JoinBytes (ws.map fun w => w.flatMap utf8Rune) (sp.flatMap utf8Rune) := by
  induction ws with
  | nil => rfl
  | cons a rest ih =>
    cases rest with
    | nil => rfl
    | cons b more =>
      simp only [joinRunes, List.flatMap_append, List.map_cons, JoinBytes] at ih ⊢
      rw [ih]

theorem JoinBytes_utf8Bytes (l : List String) (sep : String) :
    JoinBytes (l.map utf8Bytes) (utf8Bytes sep) = utf8Bytes (Join l sep) := by
  simp only [utf8Bytes, Join, flatMap_joinRunes, List.map_map]
  rfl

theorem normalizeBytes_utf8Bytes (s : String) :
    normalizeBytes (utf8Bytes s) = utf8Bytes (normalize s) := by
  simp only [normalizeBytes, normalize, TrimSpaceBytes_utf8Bytes, FieldsBytes_utf8Bytes,
    JoinBytes_utf8Bytes]

/-- On well-formed text the byte-level hash is the hash of the text. -/
theorem computeCertHashBytes_utf8Bytes (name dob tob place father mother version : String) :
    computeCertHashBytes (utf8Bytes name) (utf8Bytes dob) (utf8Bytes tob) (utf8Bytes place)
        (utf8Bytes father) (utf8Bytes mother) (utf8Bytes version)
      = computeCertHash name dob tob place father mother version := by
  have h := JoinBytes_utf8Bytes [normalize name, normalize dob, normalize tob, normalize place,
    normalize father, normalize mother, normalize version] "|"
  simp only [List.map_cons, List.map_nil] at h
  simp only [computeCertHashBytes, computeCertHash, normalizeBytes_utf8Bytes, h]

theorem setFieldBytes_inMemory (key : String) (r : CertRecord) (v : String) :
    setFieldBytes key r.inMemory (utf8Bytes v) = (setField key r v).map CertRecord.inMemory := by
  unfold setFieldBytes setField
  split_ifs <;> rfl

theorem rehashBytes_stored (now : String) (r : CertRecord) :
    (rehashBytes now r.inMemory).stored = rehash now r := by
  cases r
  simp only [rehashBytes, rehash, CertRecord.inMemory, CertRecordBytes.stored,
    toValidUTF8_utf8Bytes, computeCertHashBytes_utf8Bytes]

/-- On arguments that are well-formed UTF-8, `RegisterCert` on bytes is
`RegisterCert` on the texts. -/
theorem RegisterCertBytes_utf8Bytes (H : Host) (now : String) (w : World)
    (id name dob tob place father mother owner source metadataJSON : String) :
    RegisterCertBytes H now w id (utf8Bytes name) (utf8Bytes dob) (utf8Bytes tob)
        (utf8Bytes place) (utf8Bytes father) (utf8Bytes mother) (utf8Bytes owner)
        (utf8Bytes source) (utf8Bytes metadataJSON)
      = RegisterCert H now w id name dob tob place father mother owner source metadataJSON := by
  simp only [RegisterCertBytes, RegisterCert, newCertRecord, CertRecordBytes.stored,
    toValidUTF8_utf8Bytes, computeCertHashBytes_utf8Bytes]

/-- On a new value that is well-formed UTF-8, `UpdateCert` on bytes is
`UpdateCert` on the text. -/
theorem UpdateCertBytes_utf8Bytes (H : Host) (now : String) (w : World)
    (id fieldName v : String) :
    UpdateCertBytes H now w id fieldName (utf8Bytes v) = UpdateCert H now w id fieldName v := by
  unfold UpdateCertBytes UpdateCert
  cases getState H w id with
  | error e => rfl
  | ok o =>
    cases o with
    | none => rfl
    | some b =>
      simp only
      cases H.unmarshalRecord b with
      | error e => rfl
      | ok parsed =>
        simp only [setFieldBytes_inMemory]
        cases setField (ToLower H.lowerTable (TrimSpace fieldName)) parsed v with
        | none => rfl
        | some rec => simp only [Option.map_some', rehashBytes_stored]

/-! ## Arguments that are not well-formed UTF-8: C2, C3, C8, C9, C13, C19 -/

theorem register_bad_name :
    RegisterCertBytes demoHost "2024-05-01T10:00:00Z" [] "cert1" janeBadName
      (utf8Bytes "1990-01-01") (utf8Bytes "08:00") (utf8Bytes "City A") (utf8Bytes "John Doe")
      (utf8Bytes "Mary Doe") (utf8Bytes "OwnerA") (utf8Bytes "CartórioX") (utf8Bytes "{}")
      = .ok badWorld := by
  rfl

theorem bad_stored_digest :
    computeCertHash badRecord.Name badRecord.DateOfBirth badRecord.TimeOfBirth
        badRecord.PlaceOfBirth badRecord.FatherName badRecord.MotherName "v1"
      = "9b5d6e014ee0b08883773acedf19ff0be6eea371e0eb50355a8c818547037156" := by
  decide

theorem getState_bad :
    getState demoHost badWorld "cert1" = .ok (some (encodeRecord badRecord)) := rfl

theorem unmarshal_bad : demoHost.unmarshalRecord (encodeRecord badRecord) = .ok badRecord :=
  demoHost_faithful _ _ rfl

/-- C2: the round trip breaks on a name that is not well-formed UTF-8. With the
id absent, `RegisterCert` of the worked example under the name bytes
`4a 61 6e 65 ff 44 6f 65` succeeds; `VerifyCert` then succeeds with
`hashMatch = false` and returns the name `Jane`, U+FFFD, `Doe`, whose bytes are
not the registered ones. -/
theorem round_trip_breaks_on_invalid_utf8 :
    getState demoHost [] "cert1" = .ok none
    ∧ RegisterCertBytes demoHost "2024-05-01T10:00:00Z" [] "cert1" janeBadName
        (utf8Bytes "1990-01-01") (utf8Bytes "08:00") (utf8Bytes "City A")
        (utf8Bytes "John Doe") (utf8Bytes "Mary Doe") (utf8Bytes "OwnerA")
        (utf8Bytes "CartórioX") (utf8Bytes "{}") = .ok badWorld
    ∧ ∃ resp, VerifyCert demoHost badWorld "cert1" = .ok resp
      ∧ resp.hashMatch = false
      ∧ resp.record.Name = "Jane\uFFFDDoe"
      ∧ utf8Bytes resp.record.Name ≠ janeBadName := by
  have hne : computeCertHash badRecord.Name badRecord.DateOfBirth badRecord.TimeOfBirth
      badRecord.PlaceOfBirth badRecord.FatherName badRecord.MotherName "v1"
      ≠ badRecord.Hash := by
    rw [bad_stored_digest]
    decide
  have hname : utf8Bytes badRecord.Name ≠ janeBadName := by decide
  exact ⟨rfl, register_bad_name, _, VerifyCert_of_record getState_bad unmarshal_bad,
    decide_eq_false hne, rfl, hname⟩

/-- C3: the hash invariant breaks after one registration. The state reached
from the empty store by `RegisterCert` of the worked example under the name
bytes `4a 61 6e 65 ff 44 6f 65` stores a record whose `Hash` is the digest
`78054c28…` of the argument bytes, while `computeCertHash` of its stored fields
is `9b5d6e01…`. -/
theorem stored_hash_not_canonical :
    RegisterCertBytes demoHost "2024-05-01T10:00:00Z" [] "cert1" janeBadName
        (utf8Bytes "1990-01-01") (utf8Bytes "08:00") (utf8Bytes "City A")
        (utf8Bytes "John Doe") (utf8Bytes "Mary Doe") (utf8Bytes "OwnerA")
        (utf8Bytes "CartórioX") (utf8Bytes "{}") = .ok badWorld
    ∧ getState demoHost badWorld "cert1" = .ok (some (encodeRecord badRecord))
    ∧ demoHost.unmarshalRecord (encodeRecord badRecord) = .ok badRecord
    ∧ badRecord.Hash = "78054c28ce2423b9dfb0f0d4e47ef1af3b56de353360679d7e320e58954f56d0"
    ∧ computeCertHash badRecord.Name badRecord.DateOfBirth badRecord.TimeOfBirth
        badRecord.PlaceOfBirth badRecord.FatherName badRecord.MotherName "v1"
        = "9b5d6e014ee0b08883773acedf19ff0be6eea371e0eb50355a8c818547037156"
    ∧ badRecord.Hash ≠ computeCertHash badRecord.Name badRecord.DateOfBirth
        badRecord.TimeOfBirth badRecord.PlaceOfBirth badRecord.FatherName
        badRecord.MotherName "v1" := by
  refine ⟨register_bad_name, getState_bad, unmarshal_bad, rfl, bad_stored_digest, ?_⟩
  rw [bad_stored_digest]
  decide

theorem update_bad_name :
    UpdateCertBytes demoHost laterTime janeWorld "cert1" "name" badNewName
      = .ok badRenamedWorld := by
  rfl

theorem badRenamed_digest :
    computeCertHash badRenamedRecord.Name badRenamedRecord.DateOfBirth
        badRenamedRecord.TimeOfBirth badRenamedRecord.PlaceOfBirth badRenamedRecord.FatherName
        badRenamedRecord.MotherName "v1"
      = "a3df28a6144b8d662a4d91906a7315855a913e186d91099c6327131ae939a9a2" := by
  decide

theorem bad_name_digest :
    computeCertHashBytes badNewName (utf8Bytes "1990-01-01") (utf8Bytes "08:00")
        (utf8Bytes "City A") (utf8Bytes "John Doe") (utf8Bytes "Mary Doe") (utf8Bytes "v1")
      = "357dc2ae54fefa31161ad3757ff567dbea0f747e6c5ba60fed7eddb37b97aad2" := by
  decide

/-- C8: the hashed mutation breaks on a new value that is not well-formed UTF-8.
`UpdateCert` of Jane Doe's name to the bytes `4e 65 77 ff 4e 61 6d 65` succeeds
and stores the name `New`, U+FFFD, `Name`, not the bytes given, with the hash
`computeCertHash` of the bytes given and the other five fields; `VerifyCert`
then reports `hashMatch = false`. -/
theorem hashed_update_breaks_on_invalid_utf8 :
    getState demoHost janeWorld "cert1" = .ok (some (encodeRecord janeRecord))
    ∧ UpdateCertBytes demoHost laterTime janeWorld "cert1" "name" badNewName
        = .ok badRenamedWorld
    ∧ ∃ resp, VerifyCert demoHost badRenamedWorld "cert1" = .ok resp
      ∧ resp.record.Name = "New\uFFFDName"
      ∧ utf8Bytes resp.record.Name ≠ badNewName
      ∧ resp.record.Hash = computeCertHashBytes badNewName (utf8Bytes "1990-01-01")
          (utf8Bytes "08:00") (utf8Bytes "City A") (utf8Bytes "John Doe")
          (utf8Bytes "Mary Doe") (utf8Bytes "v1")
      ∧ resp.hashMatch = false := by
  have hget : getState demoHost badRenamedWorld "cert1"
      = .ok (some (encodeRecord badRenamedRecord)) := rfl
  have hrec : demoHost.unmarshalRecord (encodeRecord badRenamedRecord) = .ok badRenamedRecord :=
    demoHost_faithful _ _ rfl
  have hne : computeCertHash badRenamedRecord.Name badRenamedRecord.DateOfBirth
      badRenamedRecord.TimeOfBirth badRenamedRecord.PlaceOfBirth badRenamedRecord.FatherName
      badRenamedRecord.MotherName "v1" ≠ badRenamedRecord.Hash := by
    rw [badRenamed_digest]
    decide
  have hbytes : utf8Bytes badRenamedRecord.Name ≠ badNewName := by decide
  have hhash : badRenamedRecord.Hash = computeCertHashBytes badNewName (utf8Bytes "1990-01-01")
      (utf8Bytes "08:00") (utf8Bytes "City A") (utf8Bytes "John Doe") (utf8Bytes "Mary Doe")
      (utf8Bytes "v1") := bad_name_digest.symm
  exact ⟨getState_jane, update_bad_name, _, VerifyCert_of_record hget hrec, rfl, hbytes,
    hhash, decide_eq_false hne⟩

theorem update_bad_owner_hash :
    UpdateCertBytes demoHost laterTime badWorld "cert1" "owner" (utf8Bytes "NewOwner")
      = .ok rehashedBadWorld := by
  rfl

theorem update_stray_owner :
    UpdateCertBytes demoHost laterTime janeWorld "cert1" "owner" [0xff]
      = .ok strayOwnerWorld := by
  rfl

/-- C9: the non-hashed mutation breaks on bytes that are not well-formed UTF-8.
For the certificate registered through `RegisterCert` under the name bytes
`4a 61 6e 65 ff 44 6f 65`, a successful `UpdateCert` of `owner` changes the
stored `Hash` from `78054c28…` to `9b5d6e01…`; and a successful `UpdateCert` of
the owner of Jane Doe's certificate to the byte `ff` stores the owner U+FFFD,
not the byte given. -/
theorem owner_update_changes_hash :
    RegisterCertBytes demoHost "2024-05-01T10:00:00Z" [] "cert1" janeBadName
        (utf8Bytes "1990-01-01") (utf8Bytes "08:00") (utf8Bytes "City A")
        (utf8Bytes "John Doe") (utf8Bytes "Mary Doe") (utf8Bytes "OwnerA")
        (utf8Bytes "CartórioX") (utf8Bytes "{}") = .ok badWorld
    ∧ UpdateCertBytes demoHost laterTime badWorld "cert1" "owner" (utf8Bytes "NewOwner")
        = .ok rehashedBadWorld
    ∧ (∃ before after, demoHost.unmarshalRecord (encodeRecord before) = .ok before
        ∧ getState demoHost badWorld "cert1" = .ok (some (encodeRecord before))
        ∧ demoHost.unmarshalRecord (encodeRecord after) = .ok after
        ∧ getState demoHost rehashedBadWorld "cert1" = .ok (some (encodeRecord after))
        ∧ after.Owner = "NewOwner"
        ∧ before.Hash = "78054c28ce2423b9dfb0f0d4e47ef1af3b56de353360679d7e320e58954f56d0"
        ∧ after.Hash = "9b5d6e014ee0b08883773acedf19ff0be6eea371e0eb50355a8c818547037156"
        ∧ after.Hash ≠ before.Hash)
    ∧ UpdateCertBytes demoHost laterTime janeWorld "cert1" "owner" [0xff] = .ok strayOwnerWorld
    ∧ ∃ rec, getState demoHost strayOwnerWorld "cert1" = .ok (some (encodeRecord rec))
        ∧ demoHost.unmarshalRecord (encodeRecord rec) = .ok rec
        ∧ rec.Owner = "\uFFFD" ∧ utf8Bytes rec.Owner ≠ [0xff] := by
  have h1 : demoHost.unmarshalRecord (encodeRecord rehashedBadRecord) = .ok rehashedBadRecord :=
    demoHost_faithful _ _ rfl
  have h2 : getState demoHost rehashedBadWorld "cert1"
      = .ok (some (encodeRecord rehashedBadRecord)) := rfl
  have h3 : rehashedBadRecord.Hash ≠ badRecord.Hash := by decide
  have h4 : getState demoHost strayOwnerWorld "cert1"
      = .ok (some (encodeRecord strayOwnerRecord)) := rfl
  have h5 : demoHost.unmarshalRecord (encodeRecord strayOwnerRecord) = .ok strayOwnerRecord :=
    demoHost_faithful _ _ rfl
  have h6 : utf8Bytes strayOwnerRecord.Owner ≠ [0xff] := by decide
  exact ⟨register_bad_name, update_bad_owner_hash,
    ⟨badRecord, rehashedBadRecord, unmarshal_bad, getState_bad, h1, h2, rfl, rfl, rfl, h3⟩,
    update_stray_owner, strayOwnerRecord, h4, h5, rfl, h6⟩

theorem update_stray_source :
    UpdateCertBytes demoHost laterTime janeWorld "cert1" "source" [0x43, 0xff]
      = .ok straySourceWorld := by
  rfl

/-- C13: the named field is not set to exactly the new value when that value is
not well-formed UTF-8. A successful `UpdateCert` of the source of Jane Doe's
certificate to the bytes `43 ff` stores the source `C`, U+FFFD. -/
theorem update_stores_coerced_value :
    getState demoHost janeWorld "cert1" = .ok (some (encodeRecord janeRecord))
    ∧ UpdateCertBytes demoHost laterTime janeWorld "cert1" "source" [0x43, 0xff]
        = .ok straySourceWorld
    ∧ ∃ rec, getState demoHost straySourceWorld "cert1" = .ok (some (encodeRecord rec))
        ∧ demoHost.unmarshalRecord (encodeRecord rec) = .ok rec
        ∧ rec.Source = "C\uFFFD" ∧ utf8Bytes rec.Source = [0x43, 0xef, 0xbf, 0xbd]
        ∧ utf8Bytes rec.Source ≠ [0x43, 0xff] := by
  have h1 : getState demoHost straySourceWorld "cert1"
      = .ok (some (encodeRecord straySourceRecord)) := rfl
  have h2 : demoHost.unmarshalRecord (encodeRecord straySourceRecord) = .ok straySourceRecord :=
    demoHost_faithful _ _ rfl
  have h3 : utf8Bytes straySourceRecord.Source = [0x43, 0xef, 0xbf, 0xbd] := by decide
  have h4 : utf8Bytes straySourceRecord.Source ≠ [0x43, 0xff] := by decide
  exact ⟨getState_jane, update_stray_source, straySourceRecord, h1, h2, rfl, h3, h4⟩

theorem update_stray_father :
    UpdateCertBytes demoHost laterTime tamperedWorld "cert1" "fathername" [0xff]
      = .ok strayFatherWorld := by
  rfl

theorem strayFather_digest :
    computeCertHash strayFatherRecord.Name strayFatherRecord.DateOfBirth
        strayFatherRecord.TimeOfBirth strayFatherRecord.PlaceOfBirth
        strayFatherRecord.FatherName strayFatherRecord.MotherName "v1"
      = "fc8d6661849a82d762f6f2fec19fa4138aa243aa0662765bb409ab1c2383967f" := by
  decide

/-- C19: `UpdateCert` does not re-establish the hash when the new value is not
well-formed UTF-8. On the certificate whose stored hash was overwritten, a
successful `UpdateCert` of the whitelisted field `fathername` to the byte `ff`
stores the hash `2bdc8c88…` of the byte given with the name U+FFFD, whose
canonical hash is `fc8d6661…`; `VerifyCert` then reports `hashMatch = false`. -/
theorem update_leaves_hash_mismatch :
    getState demoHost tamperedWorld "cert1" = .ok (some (encodeRecord tamperedRecord))
    ∧ demoHost.unmarshalRecord (encodeRecord tamperedRecord) = .ok tamperedRecord
    ∧ ToLower demoHost.lowerTable (TrimSpace "fathername") ∈ fieldWhitelist
    ∧ UpdateCertBytes demoHost laterTime tamperedWorld "cert1" "fathername" [0xff]
        = .ok strayFatherWorld
    ∧ ∃ resp, VerifyCert demoHost strayFatherWorld "cert1" = .ok resp
      ∧ resp.record.FatherName = "\uFFFD"
      ∧ resp.record.Hash = "2bdc8c889ccbda661cdf811363144cd2d6c9161fafa1945deba0728efaa297c9"
      ∧ resp.hashMatch = false := by
  have hget : getState demoHost strayFatherWorld "cert1"
      = .ok (some (encodeRecord strayFatherRecord)) := rfl
  have hrec : demoHost.unmarshalRecord (encodeRecord strayFatherRecord)
      = .ok strayFatherRecord := demoHost_faithful _ _ rfl
  have hne : computeCertHash strayFatherRecord.Name strayFatherRecord.DateOfBirth
      strayFatherRecord.TimeOfBirth strayFatherRecord.PlaceOfBirth
      strayFatherRecord.FatherName strayFatherRecord.MotherName "v1"
      ≠ strayFatherRecord.Hash := by
    rw [strayFather_digest]
    decide
  have hwl : ToLower demoHost.lowerTable (TrimSpace "fathername") ∈ fieldWhitelist := by decide
  exact ⟨getState_tampered, unmarshal_tampered, hwl, update_stray_father, _,
    VerifyCert_of_record hget hrec, rfl, rfl, decide_eq_false hne⟩

end CertChain
